import Mathlib

/-!
Packetizer framing codecs (COBS / SLIP) and the streaming decoder

A shallow embedding of `util/Packetizer/Packetizer/Encoding.h`.

Conventions of the embedding
* a `uint8_t` is a natural number; arithmetic on `uint8_t` objects is reduced
  modulo `256` where the source increments or decrements them, and the
  `uint32_t` error counter modulo `2 ^ 32`;
* a `Packet` (`std::vector<uint8_t>`) is a list of bytes, `emplace_back` is
  appending one element at the end;
* the two output queues are lists, oldest entry first;
* `crcx::crc8` and `default_option` live outside the translated file and are
  taken as parameters;
* an operation whose behaviour the C++ standard leaves undefined (reading an
  element of an empty vector, reading past the end of the input, storing
  through `operator[]` at a position that is not below `size()`) makes the
  embedded function return `none`.
-/

namespace Packetizer

/-- A `Packet` is the byte vector of the source. -/
abbrev Packet := List Nat

/-- The queue of decoded packets, oldest first. -/
abbrev PacketQueue := List Packet

/-- The queue of channel indices, oldest first. -/
abbrev IndexQueue := List Nat

/-- The indexed store `buffer[i] = v` through the unchecked `operator[]`.
Below `buffer.size()` it replaces the element; at any other position the
behaviour is undefined and there is no result. -/
def store (buffer : Packet) (i v : Nat) : Option Packet :=
  if i < buffer.length then some (buffer.set i v) else none

/-- The three virtual lifecycle operations of `EncoderBase` together with the
accessor `packet()`, over an encoder state `σ`. `append` and `footer` have no
result where the codec runs into undefined behaviour. -/
structure EncoderOps (σ : Type) where
  header : σ → σ
  append : σ → Nat → Option σ
  footer : σ → Option σ
  packet : σ → Packet

/-- The overload `EncoderBase::encode(index, src, size, b_crc)`; the result is
the encoder after the call, whose `packet()` is the frame, and there is none
when one of the calls has none. -/
def EncoderBase.encode {σ : Type} (E : EncoderOps σ) (crc8 : Packet → Nat)
    (e : σ) (index : Nat) (src : Packet) (b_crc : Bool) : Option σ :=
  (E.append (E.header e) index).bind fun e2 =>
  (src.foldlM E.append e2).bind fun e3 =>
  (if b_crc then E.append e3 (crc8 src) else some e3).bind fun e4 =>
  E.footer e4

/-- The overload `EncoderBase::encode(src, size, b_crc)` without index. -/
def EncoderBase.encodeNoIndex {σ : Type} (E : EncoderOps σ) (crc8 : Packet → Nat)
    (e : σ) (src : Packet) (b_crc : Bool) : Option σ :=
  (src.foldlM E.append (E.header e)).bind fun e3 =>
  (if b_crc then E.append e3 (crc8 src) else some e3).bind fun e4 =>
  E.footer e4

/-- The data members of `DecoderBase`. -/
structure DecoderBase where
  buffer : Packet
  b_index : Bool
  b_crc : Bool
  b_parsing : Bool
  err_count : Nat
deriving DecidableEq

/-- The two virtual members of `DecoderBase` a codec supplies. -/
structure DecoderOps where
  decode : Packet → Option Packet
  marker : Nat

/-- A freshly constructed decoder; the two options are seeded from
`default_option`, which is a parameter here. -/
def DecoderBase.create (b_index b_crc : Bool) : DecoderBase :=
  { buffer := [], b_index := b_index, b_crc := b_crc, b_parsing := false, err_count := 0 }

/-- The method `DecoderBase::reset`. -/
def DecoderBase.reset (d : DecoderBase) : DecoderBase :=
  { d with buffer := [], b_parsing := false }

/-- The accessor `DecoderBase::parsing`. -/
def DecoderBase.parsing (d : DecoderBase) : Bool := d.b_parsing

/-- The accessor `DecoderBase::errors`. -/
def DecoderBase.errors (d : DecoderBase) : Nat := d.err_count

/-- The method `DecoderBase::feed`, with the two queues passed through.
The result is `none` when the source reads `front()` or `back()` of an empty
packet, or when `decode` reads outside its input. -/
def DecoderBase.feed (D : DecoderOps) (crc8 : Packet → Nat) (d : DecoderBase) (data : Nat)
    (packets : PacketQueue) (indices : IndexQueue) :
    Option (DecoderBase × PacketQueue × IndexQueue) :=
  if data = D.marker then
    if d.buffer ≠ [] then
      let buffer := d.buffer ++ [data]
      match D.decode buffer with
      | none => none
      | some packet =>
        let afterIndex : Option (Packet × IndexQueue) :=
          if d.b_index then
            match packet with
            | [] => none
            | x :: rest => some (rest, indices ++ [x])
          else some (packet, indices ++ [0])
        match afterIndex with
        | none => none
        | some (packet1, indices1) =>
          if d.b_crc then
            match packet1.getLast? with
            | none => none
            | some back =>
              if crc8 packet1.dropLast = back then
                some (({ d with buffer := buffer }).reset, packets ++ [packet1.dropLast], indices1)
              else
                some (({ d with buffer := buffer, err_count := (d.err_count + 1) % 2 ^ 32 }).reset,
                  packets, indices1)
          else
            some (({ d with buffer := buffer }).reset, packets ++ [packet1], indices1)
    else
      some (d.reset, packets, indices)
  else
    some ({ d with buffer := d.buffer ++ [data], b_parsing := true }, packets, indices)

/-- Driving `feed` with every byte of a stream, in arrival order. -/
def DecoderBase.feedAll (D : DecoderOps) (crc8 : Packet → Nat) :
    List Nat → DecoderBase × PacketQueue × IndexQueue →
      Option (DecoderBase × PacketQueue × IndexQueue)
  | [], s => some s
  | b :: bs, s =>
    match DecoderBase.feed D crc8 s.1 b s.2.1 s.2.2 with
    | none => none
    | some s1 => DecoderBase.feedAll D crc8 bs s1

namespace cobs

def MARKER_END : Nat := 0
def MARKER_DUMMY : Nat := 0
def NEXT_ZERO_AFTER_NOZERO_PACKET : Nat := 0

/-- The data members of `cobs::Encoder` (the inherited `buffer` included). -/
structure Encoder where
  buffer : Packet
  next_zero_count : Nat
  next_zero_index : Nat
deriving DecidableEq

/-- A default-constructed `cobs::Encoder`. -/
def Encoder.create : Encoder :=
  { buffer := [], next_zero_count := 1, next_zero_index := 0 }

/-- The method `cobs::Encoder::header`. -/
def Encoder.header (_e : Encoder) : Encoder :=
  { buffer := [MARKER_DUMMY], next_zero_count := 1, next_zero_index := 0 }

/-- The method `cobs::Encoder::append`: the three consecutive `if` statements.
The two stores `buffer[next_zero_index] = next_zero_count` go through `store`. -/
def Encoder.append (e : Encoder) (data : Nat) : Option Encoder :=
  let e1 : Encoder :=
    if e.next_zero_count = NEXT_ZERO_AFTER_NOZERO_PACKET then
      { buffer := e.buffer ++ [MARKER_DUMMY], next_zero_count := 1,
        next_zero_index := e.buffer.length }
    else e
  let r2 : Option Encoder :=
    if data ≠ MARKER_END then
      some { e1 with buffer := e1.buffer ++ [data],
                     next_zero_count := (e1.next_zero_count + 1) % 256 }
    else
      (store e1.buffer e1.next_zero_index e1.next_zero_count).map fun b =>
        { buffer := b ++ [MARKER_DUMMY], next_zero_count := 1, next_zero_index := b.length }
  r2.bind fun e2 =>
    if e2.next_zero_count = 0xFF then
      (store e2.buffer e2.next_zero_index e2.next_zero_count).map fun b =>
        { buffer := b, next_zero_count := NEXT_ZERO_AFTER_NOZERO_PACKET,
          next_zero_index := b.length }
    else some e2

/-- The method `cobs::Encoder::footer`: the store
`buffer[next_zero_index] = next_zero_count`, then the end marker. -/
def Encoder.footer (e : Encoder) : Option Encoder :=
  (store e.buffer e.next_zero_index e.next_zero_count).map fun b =>
    { e with buffer := b ++ [MARKER_END] }

/-- The COBS encoder as an instance of the encoder interface. -/
def encoderOps : EncoderOps Encoder :=
  { header := Encoder.header, append := Encoder.append, footer := Encoder.footer,
    packet := fun e => e.buffer }

/-- The frame left in the buffer by `header(); append(b) for each b; footer()`,
when all these calls have a result. -/
def frame (bytes : Packet) : Option Packet :=
  ((bytes.foldlM Encoder.append (Encoder.header Encoder.create)).bind Encoder.footer).map
    fun e => e.buffer

/-- The loop of `cobs::Decoder::decode` over the bytes not yet read, carrying
`packet`, `next_zero` and `rest`; a `break` returns the packet at once. -/
def Decoder.decodeLoop : List Nat → Packet → Nat → Nat → Packet
  | [], packet, _, _ => packet
  | b :: src, packet, next_zero, rest =>
    if rest = 0 then
      if next_zero ≠ 0xFF then
        if b = MARKER_END then packet
        else Decoder.decodeLoop src (packet ++ [0]) b ((b + 255) % 256)
      else
        if b = MARKER_END then packet
        else Decoder.decodeLoop src packet b ((b + 255) % 256)
    else
      Decoder.decodeLoop src (packet ++ [b]) next_zero ((rest + 255) % 256)

/-- The method `cobs::Decoder::decode`. -/
def Decoder.decode (src : Packet) : Packet :=
  Decoder.decodeLoop src [] 0xFF 0

/-- The COBS decoder as an instance of the decoder interface; its `decode`
reads only inside its input. -/
def decoderOps : DecoderOps :=
  { decode := fun src => some (Decoder.decode src), marker := MARKER_END }

end cobs

namespace slip

def MARKER_END : Nat := 0xC0
def MARKER_ESC : Nat := 0xDB
def MARKER_ESC_END : Nat := 0xDC
def MARKER_ESC_ESC : Nat := 0xDD

/-- The only data member of `slip::Encoder` is the inherited `buffer`. -/
structure Encoder where
  buffer : Packet
deriving DecidableEq

/-- A default-constructed `slip::Encoder`. -/
def Encoder.create : Encoder := { buffer := [] }

/-- The method `slip::Encoder::header`. -/
def Encoder.header (_e : Encoder) : Encoder := { buffer := [MARKER_END] }

/-- The method `slip::Encoder::append`. -/
def Encoder.append (e : Encoder) (data : Nat) : Encoder :=
  if data = MARKER_END then
    { buffer := e.buffer ++ [MARKER_ESC] ++ [MARKER_ESC_END] }
  else if data = MARKER_ESC then
    { buffer := e.buffer ++ [MARKER_ESC] ++ [MARKER_ESC_ESC] }
  else
    { buffer := e.buffer ++ [data] }

/-- The method `slip::Encoder::footer`. -/
def Encoder.footer (e : Encoder) : Encoder := { buffer := e.buffer ++ [MARKER_END] }

/-- The SLIP encoder as an instance of the encoder interface; its operations
only append to the buffer and always have a result. -/
def encoderOps : EncoderOps Encoder :=
  { header := Encoder.header, append := fun e data => some (Encoder.append e data),
    footer := fun e => some (Encoder.footer e), packet := fun e => e.buffer }

/-- The frame left in the buffer by `header(); append(b) for each b; footer()`. -/
def frame (bytes : Packet) : Packet :=
  (Encoder.footer (bytes.foldl Encoder.append (Encoder.header Encoder.create))).buffer

/-- The loop of `slip::Decoder::decode` over the bytes from position `i` on.
An escape byte in the last position makes the source read `src[size]`, which
is outside the input: the result is `none`. -/
def Decoder.decodeLoop : List Nat → Packet → Option Packet
  | [], packet => some packet
  | b :: src, packet =>
    if b = MARKER_END then Decoder.decodeLoop src packet
    else if b = MARKER_ESC then
      match src with
      | [] => none
      | n :: src1 =>
        if n = MARKER_ESC_END then Decoder.decodeLoop src1 (packet ++ [MARKER_END])
        else if n = MARKER_ESC_ESC then Decoder.decodeLoop src1 (packet ++ [MARKER_ESC])
        else Decoder.decodeLoop src1 packet
    else Decoder.decodeLoop src (packet ++ [b])

/-- The method `slip::Decoder::decode`. -/
def Decoder.decode (src : Packet) : Option Packet :=
  Decoder.decodeLoop src []

/-- The SLIP decoder as an instance of the decoder interface. -/
def decoderOps : DecoderOps :=
  { decode := Decoder.decode, marker := MARKER_END }

end slip


/-! ## Predicates used in the proofs -/

namespace cobs

/-- The decoder, started on `pre` followed by anything, has produced `pk` and
is about to read a distance byte with `next_zero = nz`. -/
def Reads (pre pk : Packet) (nz : Nat) : Prop :=
  ∀ tail, Decoder.decodeLoop (pre ++ tail) [] 0xFF 0 = Decoder.decodeLoop tail pk nz 0

/-- The encoder invariant after the logical bytes `q` have been appended. -/
inductive EncInv (q : Packet) (e : Encoder) : Prop
  | full :
      e.next_zero_count = 0 → e.next_zero_index = e.buffer.length → e.buffer ≠ [] →
      (∀ x ∈ e.buffer, x ≠ 0) → Reads e.buffer q 0xFF → EncInv q e
  | pending (pre run pk : Packet) (nz : Nat) :
      1 ≤ e.next_zero_count → e.next_zero_count ≤ 254 →
      e.buffer = pre ++ 0 :: run → e.next_zero_index = pre.length →
      run.length + 1 = e.next_zero_count →
      (∀ x ∈ pre, x ≠ 0) → (∀ x ∈ run, x ≠ 0) →
      Reads pre pk nz → q = pk ++ (if nz ≠ 0xFF then [0] else []) ++ run → EncInv q e

end cobs

namespace slip

/-- The bytes `append` emits for one logical byte. -/
def escape (data : Nat) : List Nat :=
  if data = MARKER_END then [MARKER_ESC, MARKER_ESC_END]
  else if data = MARKER_ESC then [MARKER_ESC, MARKER_ESC_ESC]
  else [data]

/-- Every escape byte of `l` is followed, inside `l`, by one of the two
escape codes. -/
def EscapesClosed (l : List Nat) : Prop :=
  ∀ k, l[k]? = some 0xDB → l[k + 1]? = some 0xDC ∨ l[k + 1]? = some 0xDD

end slip

namespace cobs

/-- Length bookkeeping of the encoder after `n` logical bytes: the buffer
holds the first placeholder, the `n` bytes and `k` further placeholders opened
after full blocks; each of those stands for 254 non-zero bytes before it. -/
def LenInv (n : Nat) (e : Encoder) : Prop :=
  e.next_zero_count ≤ 254 ∧
  ∃ k, e.buffer.length = n + 1 + k ∧
    (e.next_zero_count = 0 → 254 * (k + 1) ≤ n) ∧
    (e.next_zero_count ≠ 0 →
      254 * k + e.next_zero_count ≤ n + 1 ∧ (0 < k → 254 * k + 1 ≤ n))

end cobs

namespace slip

/-- The positions of `src` that the loop of `slip::Decoder::decode` reads, in
order, from position `i` on: `src[i]` in every iteration and `src[i + 1]`
after an escape byte. The source does not compare `i + 1` with `size`. -/
def Decoder.readPositions : Nat → List Nat → List Nat
  | _, [] => []
  | i, b :: src =>
    if b = MARKER_END then i :: Decoder.readPositions (i + 1) src
    else if b = MARKER_ESC then
      match src with
      | [] => [i, i + 1]
      | _ :: src1 => i :: (i + 1) :: Decoder.readPositions (i + 2) src1
    else i :: Decoder.readPositions (i + 1) src

end slip

/-- The setter `DecoderBase::indexing(bool)`. -/
def DecoderBase.setIndexing (d : DecoderBase) (b : Bool) : DecoderBase :=
  { d with b_index := b }

/-- The setter `DecoderBase::verifying(bool)`. -/
def DecoderBase.setVerifying (d : DecoderBase) (b : Bool) : DecoderBase :=
  { d with b_crc := b }

/-- The decoder states, observed between calls, that a freshly constructed
decoder reaches by calls of `feed` (with any two queues), `reset` and the two
option setters. -/
inductive DecoderBase.Reachable (D : DecoderOps) (crc8 : Packet → Nat) : DecoderBase → Prop
  | create (b_index b_crc : Bool) : Reachable D crc8 (DecoderBase.create b_index b_crc)
  | feed (d d1 : DecoderBase) (data : Nat) (ps ps1 : PacketQueue) (is is1 : IndexQueue) :
      Reachable D crc8 d → DecoderBase.feed D crc8 d data ps is = some (d1, ps1, is1) →
      Reachable D crc8 d1
  | reset (d : DecoderBase) : Reachable D crc8 d → Reachable D crc8 d.reset
  | indexing (d : DecoderBase) (b : Bool) :
      Reachable D crc8 d → Reachable D crc8 (d.setIndexing b)
  | verifying (d : DecoderBase) (b : Bool) :
      Reachable D crc8 d → Reachable D crc8 (d.setVerifying b)

/-! ## COBS: the decoder reads back what the encoder wrote -/

namespace cobs

theorem store_at_length (pre run : Packet) (x v : Nat) :
    store (pre ++ x :: run) pre.length v = some (pre ++ v :: run) := by
  simp [store]

/-- A store at the position `size()` has no result. -/
theorem store_at_size (buffer : Packet) (v : Nat) :
    store buffer buffer.length v = none := by
  simp [store]

/-- While `rest` counts down, the decoder copies the bytes as they are. -/
theorem decodeLoop_copy (run tail : List Nat) (nz : Nat) :
    ∀ (pk : Packet) (rest : Nat), rest = run.length → rest < 256 →
      Decoder.decodeLoop (run ++ tail) pk nz rest = Decoder.decodeLoop tail (pk ++ run) nz 0 := by
  induction run with
  | nil =>
    intro pk rest h _
    simp at h
    simp [h]
  | cons x xs ih =>
    intro pk rest h hlt
    simp only [List.length_cons] at h
    have hne : rest ≠ 0 := by omega
    have hdec : (rest + 255) % 256 = xs.length := by omega
    rw [List.cons_append, Decoder.decodeLoop]
    simp only [hne, if_false]
    rw [ih (pk ++ [x]) _ hdec (by omega)]
    simp

/-- One block: a distance byte `c` followed by `c - 1` copied bytes. -/
theorem decodeLoop_block (c : Nat) (run tail : List Nat) (pk : Packet) (nz : Nat)
    (hc1 : 1 ≤ c) (hc2 : c ≤ 255) (hlen : run.length + 1 = c) :
    Decoder.decodeLoop (c :: (run ++ tail)) pk nz 0 =
      Decoder.decodeLoop tail (pk ++ (if nz ≠ 0xFF then [0] else []) ++ run) c 0 := by
  have hc0 : c ≠ MARKER_END := by simp [MARKER_END]; omega
  have hdec : (c + 255) % 256 = run.length := by omega
  rw [Decoder.decodeLoop]
  by_cases hnz : nz = 0xFF
  · simp only [hnz, hc0, if_true, if_false, ne_eq, not_true_eq_false]
    rw [decodeLoop_copy run tail c pk _ hdec (by omega)]
    simp
  · simp only [hnz, hc0, if_true, if_false, ne_eq, not_false_eq_true]
    rw [decodeLoop_copy run tail c _ _ hdec (by omega)]

theorem encInv_header (e : Encoder) : EncInv [] (Encoder.header e) := by
  refine EncInv.pending [] [] [] 0xFF ?_ ?_ ?_ ?_ ?_ ?_ ?_ ?_ ?_ <;>
    simp [Encoder.header, MARKER_DUMMY, Reads]

theorem append_after_full (e : Encoder) (data : Nat) (h : e.next_zero_count = 0) :
    Encoder.append e data =
      Encoder.append { buffer := e.buffer ++ [0], next_zero_count := 1,
                       next_zero_index := e.buffer.length } data := by
  simp [Encoder.append, h, NEXT_ZERO_AFTER_NOZERO_PACKET, MARKER_DUMMY]

theorem append_zero (e : Encoder) (h : e.next_zero_count ≠ 0) :
    Encoder.append e 0 =
      (store e.buffer e.next_zero_index e.next_zero_count).map fun b =>
        { buffer := b ++ [0], next_zero_count := 1, next_zero_index := b.length } := by
  cases hs : store e.buffer e.next_zero_index e.next_zero_count <;>
    simp [Encoder.append, h, hs, NEXT_ZERO_AFTER_NOZERO_PACKET, MARKER_DUMMY, MARKER_END]

theorem append_nonzero (e : Encoder) (data : Nat) (h : e.next_zero_count ≠ 0)
    (hd : data ≠ 0) (hc : e.next_zero_count + 1 < 255) :
    Encoder.append e data =
      some { e with buffer := e.buffer ++ [data],
                    next_zero_count := e.next_zero_count + 1 } := by
  have h1 : (e.next_zero_count + 1) % 256 = e.next_zero_count + 1 := by omega
  have h2 : e.next_zero_count + 1 ≠ 255 := by omega
  simp [Encoder.append, h, NEXT_ZERO_AFTER_NOZERO_PACKET, MARKER_END, hd, h1, h2]

theorem append_nonzero_full (e : Encoder) (data : Nat) (hd : data ≠ 0)
    (hc : e.next_zero_count = 254) :
    Encoder.append e data =
      (store (e.buffer ++ [data]) e.next_zero_index 255).map fun b =>
        { buffer := b, next_zero_count := 0, next_zero_index := b.length } := by
  simp [Encoder.append, hc, NEXT_ZERO_AFTER_NOZERO_PACKET, MARKER_END, hd]

theorem encInv_append_pending (q : Packet) (e : Encoder) (data : Nat)
    (pre run pk : Packet) (nz : Nat)
    (h1 : 1 ≤ e.next_zero_count) (h2 : e.next_zero_count ≤ 254)
    (hb : e.buffer = pre ++ 0 :: run) (hi : e.next_zero_index = pre.length)
    (hl : run.length + 1 = e.next_zero_count)
    (hpre : ∀ x ∈ pre, x ≠ 0) (hrun : ∀ x ∈ run, x ≠ 0)
    (hR : Reads pre pk nz) (hq : q = pk ++ (if nz ≠ 0xFF then [0] else []) ++ run) :
    ∃ e1, Encoder.append e data = some e1 ∧ EncInv (q ++ [data]) e1 := by
  have hc0 : e.next_zero_count ≠ 0 := by omega
  by_cases hd : data = 0
  · subst hd
    rw [append_zero e hc0, hb, hi, store_at_length]
    refine ⟨_, rfl, ?_⟩
    refine EncInv.pending (pre ++ e.next_zero_count :: run) []
      (pk ++ (if nz ≠ 0xFF then [0] else []) ++ run) e.next_zero_count
      (by simp) (by simp) (by simp) (by simp) (by simp) ?_ (by simp) ?_ ?_
    · intro x hx
      simp only [List.mem_append, List.mem_cons] at hx
      rcases hx with hx | hx | hx
      · exact hpre x hx
      · omega
      · exact hrun x hx
    · intro tail
      have := hR (e.next_zero_count :: (run ++ tail))
      simp only [List.append_assoc, List.cons_append] at this ⊢
      rw [this, decodeLoop_block _ run tail pk nz h1 (by omega) hl]
      simp
    · have hne : e.next_zero_count ≠ 255 := by omega
      simp [hq, hne]
  · by_cases hfull : e.next_zero_count = 254
    · rw [append_nonzero_full e data hd hfull, hb, hi]
      have hst : store (pre ++ 0 :: run ++ [data]) pre.length 255
          = some (pre ++ 255 :: (run ++ [data])) := by
        have := store_at_length pre (run ++ [data]) 0 255
        simpa using this
      rw [hst]
      refine ⟨_, rfl, ?_⟩
      refine EncInv.full (by simp) (by simp) (by simp) ?_ ?_
      · intro x hx
        simp only [List.mem_append, List.mem_cons, List.mem_singleton, List.not_mem_nil,
          or_false] at hx
        rcases hx with hx | hx | hx | hx
        · exact hpre x hx
        · omega
        · exact hrun x hx
        · omega
      · intro tail
        have := hR (255 :: ((run ++ [data]) ++ tail))
        have hb2 := decodeLoop_block 255 (run ++ [data]) tail pk nz (by omega) (by omega)
          (by simp; omega)
        simp only [List.append_assoc, List.cons_append, List.nil_append,
          List.singleton_append] at this hb2 ⊢
        rw [this, hb2, hq]
        simp
    · rw [append_nonzero e data hc0 hd (by omega)]
      refine ⟨_, rfl, ?_⟩
      refine EncInv.pending pre (run ++ [data]) pk nz (by simp) (by simp; omega)
        (by simp [hb]) (by simp [hi]) (by simp; omega) hpre ?_ hR (by simp [hq])
      intro x hx
      simp only [List.mem_append, List.mem_singleton] at hx
      rcases hx with hx | hx
      · exact hrun x hx
      · omega

theorem encInv_append (q : Packet) (e : Encoder) (data : Nat) (h : EncInv q e) :
    ∃ e1, Encoder.append e data = some e1 ∧ EncInv (q ++ [data]) e1 := by
  cases h with
  | full hc hi _ hnz hR =>
    rw [append_after_full e data hc]
    exact encInv_append_pending q _ data e.buffer [] q 0xFF (by simp) (by simp) (by simp)
      (by simp) (by simp) hnz (by simp) hR (by simp)
  | pending pre run pk nz h1 h2 hb hi hl hpre hrun hR hq =>
    exact encInv_append_pending q e data pre run pk nz h1 h2 hb hi hl hpre hrun hR hq

/-- From a state that satisfies the invariant every `append` has a result, and
the invariant holds after all of `bytes`. -/
theorem encInv_foldlM (bytes : Packet) :
    ∀ (q : Packet) (e : Encoder), EncInv q e →
      ∃ e1, bytes.foldlM Encoder.append e = some e1 ∧ EncInv (q ++ bytes) e1 := by
  induction bytes with
  | nil => intro q e h; exact ⟨e, rfl, by simpa using h⟩
  | cons b bs ih =>
    intro q e h
    obtain ⟨e1, he1, hinv1⟩ := encInv_append q e b h
    obtain ⟨e2, he2, hinv2⟩ := ih (q ++ [b]) e1 hinv1
    refine ⟨e2, ?_, by simpa using hinv2⟩
    rw [List.foldlM_cons, he1]
    exact he2

/-- The `footer` of a state with a pending placeholder: the decoder reads the
buffer back as `q`, and the only zero byte is the last one. -/
theorem encInv_footer (q : Packet) (e : Encoder) (h : EncInv q e)
    (hc : e.next_zero_count ≠ 0) :
    ∃ body, Encoder.footer e = some { e with buffer := body ++ [0] } ∧
      Decoder.decode (body ++ [0]) = q ∧ body ≠ [] ∧ (∀ x ∈ body, x ≠ 0) ∧
      body.length = e.buffer.length := by
  cases h with
  | full hc0 _ _ _ _ => exact absurd hc0 hc
  | pending pre run pk nz h1 h2 hb hi hl hpre hrun hR hq =>
    refine ⟨pre ++ e.next_zero_count :: run, ?_, ?_, by simp, ?_, by simp [hb]⟩
    · simp [Encoder.footer, hi, hb, store_at_length, MARKER_END]
    · rw [Decoder.decode]
      have := hR (e.next_zero_count :: (run ++ [0]))
      simp only [List.append_assoc, List.cons_append] at this ⊢
      rw [this, decodeLoop_block _ run [0] pk nz h1 (by omega) hl, hq]
      simp [Decoder.decodeLoop, MARKER_END]
    · intro x hx
      simp only [List.mem_append, List.mem_cons] at hx
      rcases hx with hx | hx | hx
      · exact hpre x hx
      · omega
      · exact hrun x hx

/-- The `footer` right after a full block: its store targets `size()`. -/
theorem encInv_footer_full (q : Packet) (e : Encoder) (h : EncInv q e)
    (hc : e.next_zero_count = 0) : Encoder.footer e = none := by
  cases h with
  | full _ hi _ _ _ => simp [Encoder.footer, hi, store_at_size]
  | pending pre run pk nz h1 _ _ _ _ _ _ _ _ => omega

end cobs

/-! ## SLIP: escaping and its inverse -/

namespace slip

theorem append_buffer (e : Encoder) (data : Nat) :
    (Encoder.append e data).buffer = e.buffer ++ escape data := by
  unfold Encoder.append escape
  split
  · simp
  · split <;> simp

theorem foldl_append_buffer (bytes : Packet) :
    ∀ e : Encoder, (bytes.foldl Encoder.append e).buffer = e.buffer ++ bytes.flatMap escape := by
  induction bytes with
  | nil => intro e; simp
  | cons b bs ih =>
    intro e
    simp [List.foldl_cons, ih, append_buffer, List.flatMap_cons]

theorem frame_eq (bytes : Packet) :
    frame bytes = MARKER_END :: (bytes.flatMap escape ++ [MARKER_END]) := by
  simp [frame, Encoder.footer, foldl_append_buffer, Encoder.header]

theorem escape_ne_nil (data : Nat) : escape data ≠ [] := by
  unfold escape
  split
  · simp
  · split <;> simp

theorem escape_no_marker (data : Nat) : ∀ x ∈ escape data, x ≠ MARKER_END := by
  unfold escape
  split
  · simp [MARKER_END, MARKER_ESC, MARKER_ESC_END]
  · split
    · simp [MARKER_END, MARKER_ESC, MARKER_ESC_ESC]
    · intro x hx
      simp only [List.mem_singleton] at hx
      subst hx
      assumption

theorem flatMap_escape_no_marker (bytes : Packet) :
    ∀ x ∈ bytes.flatMap escape, x ≠ MARKER_END := by
  intro x hx
  simp only [List.mem_flatMap] at hx
  obtain ⟨b, _, hb⟩ := hx
  exact escape_no_marker b x hb

theorem flatMap_escape_ne_nil (bytes : Packet) (h : bytes ≠ []) :
    bytes.flatMap escape ≠ [] := by
  cases bytes with
  | nil => exact absurd rfl h
  | cons b bs =>
    have := escape_ne_nil b
    simp [List.flatMap_cons, this]

theorem decodeLoop_marker (src : List Nat) (pk : Packet) :
    Decoder.decodeLoop (MARKER_END :: src) pk = Decoder.decodeLoop src pk := by
  rw [Decoder.decodeLoop.eq_def]
  simp

theorem decodeLoop_plain (b : Nat) (src : List Nat) (pk : Packet)
    (h1 : b ≠ MARKER_END) (h2 : b ≠ MARKER_ESC) :
    Decoder.decodeLoop (b :: src) pk = Decoder.decodeLoop src (pk ++ [b]) := by
  rw [Decoder.decodeLoop.eq_def]
  simp [h1, h2]

/-- The decoder undoes the escaping of one logical byte. -/
theorem decodeLoop_escape (data : Nat) (tail : List Nat) (pk : Packet) :
    Decoder.decodeLoop (escape data ++ tail) pk = Decoder.decodeLoop tail (pk ++ [data]) := by
  unfold escape
  by_cases h1 : data = MARKER_END
  · subst h1
    simp [Decoder.decodeLoop, MARKER_END, MARKER_ESC, MARKER_ESC_END]
  · by_cases h2 : data = MARKER_ESC
    · subst h2
      simp [Decoder.decodeLoop, MARKER_END, MARKER_ESC, MARKER_ESC_END, MARKER_ESC_ESC]
    · simp only [h1, h2, if_false, List.singleton_append]
      exact decodeLoop_plain data tail pk h1 h2

theorem decodeLoop_flatMap_escape (bytes : Packet) (tail : List Nat) :
    ∀ pk : Packet, Decoder.decodeLoop (bytes.flatMap escape ++ tail) pk
      = Decoder.decodeLoop tail (pk ++ bytes) := by
  induction bytes with
  | nil => intro pk; simp
  | cons b bs ih =>
    intro pk
    rw [List.flatMap_cons, List.append_assoc, decodeLoop_escape, ih]
    simp

theorem decode_body (bytes : Packet) :
    Decoder.decode (bytes.flatMap escape ++ [MARKER_END]) = some bytes := by
  rw [Decoder.decode, decodeLoop_flatMap_escape]
  simp [Decoder.decodeLoop]

theorem decode_frame (bytes : Packet) : Decoder.decode (frame bytes) = some bytes := by
  rw [frame_eq, Decoder.decode, decodeLoop_marker]
  exact decode_body bytes

theorem escapesClosed_cons (b : Nat) (l : List Nat) (hb : b ≠ 0xDB) (h : EscapesClosed l) :
    EscapesClosed (b :: l) := by
  intro k hk
  cases k with
  | zero => simp at hk; exact absurd hk hb
  | succ k => simpa using h k (by simpa using hk)

theorem escapesClosed_pair (c : Nat) (l : List Nat) (hc : c = 0xDC ∨ c = 0xDD)
    (h : EscapesClosed l) : EscapesClosed (0xDB :: c :: l) := by
  intro k hk
  cases k with
  | zero => simpa using hc
  | succ k =>
    cases k with
    | zero =>
      simp at hk
      omega
    | succ k => simpa using h k (by simpa using hk)

theorem escapesClosed_flatMap (bytes : Packet) : EscapesClosed (bytes.flatMap escape) := by
  induction bytes with
  | nil => intro k hk; simp at hk
  | cons b bs ih =>
    rw [List.flatMap_cons]
    unfold escape
    by_cases h1 : b = MARKER_END
    · simp only [h1, if_true]
      exact escapesClosed_pair _ _ (Or.inl rfl) ih
    · by_cases h2 : b = MARKER_ESC
      · simp only [h1, h2, if_true, if_false]
        exact escapesClosed_pair _ _ (Or.inr rfl) ih
      · simp only [h1, h2, if_false]
        exact escapesClosed_cons _ _ h2 ih

end slip

/-! ## The generic `encode` in terms of the frame of its logical bytes -/

theorem foldlM_some_eq_foldl {σ : Type} (f : σ → Nat → σ) (bytes : Packet) :
    ∀ e : σ, bytes.foldlM (fun s data => some (f s data)) e = some (bytes.foldl f e) := by
  induction bytes with
  | nil => intro e; rfl
  | cons b bs ih =>
    intro e
    rw [List.foldlM_cons, List.foldl_cons]
    exact ih (f e b)

theorem cobs_encode_buffer (crc8 : Packet → Nat) (e : cobs.Encoder) (index : Nat)
    (src : Packet) (b_crc : Bool) :
    (EncoderBase.encode cobs.encoderOps crc8 e index src b_crc).map (fun s => s.buffer)
      = cobs.frame (index :: (src ++ if b_crc then [crc8 src] else [])) := by
  cases b_crc <;>
    simp [EncoderBase.encode, cobs.encoderOps, cobs.frame, cobs.Encoder.header,
      List.foldlM_append, Option.bind_assoc]

theorem cobs_encodeNoIndex_buffer (crc8 : Packet → Nat) (e : cobs.Encoder)
    (src : Packet) (b_crc : Bool) :
    (EncoderBase.encodeNoIndex cobs.encoderOps crc8 e src b_crc).map (fun s => s.buffer)
      = cobs.frame (src ++ if b_crc then [crc8 src] else []) := by
  cases b_crc <;>
    simp [EncoderBase.encodeNoIndex, cobs.encoderOps, cobs.frame, cobs.Encoder.header,
      List.foldlM_append, Option.bind_assoc]

theorem slip_encode_buffer (crc8 : Packet → Nat) (e : slip.Encoder) (index : Nat)
    (src : Packet) (b_crc : Bool) :
    (EncoderBase.encode slip.encoderOps crc8 e index src b_crc).map (fun s => s.buffer)
      = some (slip.frame (index :: (src ++ if b_crc then [crc8 src] else []))) := by
  cases b_crc <;>
    simp [EncoderBase.encode, slip.encoderOps, slip.frame, slip.Encoder.header,
      foldlM_some_eq_foldl, List.foldl_append]

theorem slip_encodeNoIndex_buffer (crc8 : Packet → Nat) (e : slip.Encoder)
    (src : Packet) (b_crc : Bool) :
    (EncoderBase.encodeNoIndex slip.encoderOps crc8 e src b_crc).map (fun s => s.buffer)
      = some (slip.frame (src ++ if b_crc then [crc8 src] else [])) := by
  cases b_crc <;>
    simp [EncoderBase.encodeNoIndex, slip.encoderOps, slip.frame, slip.Encoder.header,
      foldlM_some_eq_foldl, List.foldl_append]

/-! ## The streaming decoder -/

namespace DecoderBase

theorem feedAll_cons (D : DecoderOps) (crc8 : Packet → Nat) (b : Nat) (bs : List Nat)
    (d : DecoderBase) (ps : PacketQueue) (is : IndexQueue) :
    feedAll D crc8 (b :: bs) (d, ps, is) =
      match feed D crc8 d b ps is with
      | none => none
      | some s1 => feedAll D crc8 bs s1 := rfl

theorem feed_plain (D : DecoderOps) (crc8 : Packet → Nat) (d : DecoderBase) (data : Nat)
    (ps : PacketQueue) (is : IndexQueue) (h : data ≠ D.marker) :
    feed D crc8 d data ps is =
      some ({ d with buffer := d.buffer ++ [data], b_parsing := true }, ps, is) := by
  simp [feed, h]

theorem feed_marker_empty (D : DecoderOps) (crc8 : Packet → Nat) (d : DecoderBase)
    (ps : PacketQueue) (is : IndexQueue) (h : d.buffer = []) :
    feed D crc8 d D.marker ps is = some (d.reset, ps, is) := by
  simp [feed, h]

/-- Bytes other than the marker are accumulated and set the mid-frame flag. -/
theorem feedAll_accumulate (D : DecoderOps) (crc8 : Packet → Nat) (body rest : List Nat)
    (ps : PacketQueue) (is : IndexQueue) (hb : ∀ x ∈ body, x ≠ D.marker) :
    ∀ d : DecoderBase, feedAll D crc8 (body ++ rest) (d, ps, is) =
      feedAll D crc8 rest
        ({ d with buffer := d.buffer ++ body, b_parsing := d.b_parsing || !body.isEmpty },
          ps, is) := by
  induction body with
  | nil => intro d; simp
  | cons x xs ih =>
    intro d
    have hx : x ≠ D.marker := hb x (by simp)
    rw [List.cons_append, feedAll_cons, feed_plain D crc8 d x ps is hx]
    simp only
    rw [ih (fun y hy => hb y (by simp [hy]))]
    simp

/-- A marker after a non-empty, marker-free accumulation delivers the frame:
decoder with indexing enabled. -/
theorem feed_frame_indexed (D : DecoderOps) (crc8 : Packet → Nat) (d : DecoderBase)
    (ps : PacketQueue) (is : IndexQueue) (i : Nat) (p : Packet)
    (hne : d.buffer ≠ []) (hi : d.b_index = true)
    (hdec : D.decode (d.buffer ++ [D.marker])
      = some (i :: (p ++ if d.b_crc then [crc8 p] else []))) :
    feed D crc8 d D.marker ps is = some (d.reset, ps ++ [p], is ++ [i]) := by
  cases hc : d.b_crc <;> simp [feed, hne, hdec, hi, hc, reset]

/-- Whatever a marker byte leads to, the mid-frame flag is cleared and the
buffer is empty afterwards. -/
theorem feed_marker_parsing (D : DecoderOps) (crc8 : Packet → Nat) (d : DecoderBase)
    (ps : PacketQueue) (is : IndexQueue) (s : DecoderBase × PacketQueue × IndexQueue)
    (h : feed D crc8 d D.marker ps is = some s) :
    s.1.b_parsing = false ∧ s.1.buffer = [] := by
  unfold feed at h
  simp only [if_true] at h
  split at h
  · split at h
    · exact absurd h (by simp)
    · split at h
      · exact absurd h (by simp)
      · split at h
        · split at h
          · exact absurd h (by simp)
          · split at h <;>
            · simp only [Option.some.injEq] at h
              subst h
              simp [reset]
        · simp only [Option.some.injEq] at h
          subst h
          simp [reset]
  · simp only [Option.some.injEq] at h
    subst h
    simp [reset]

/-- A whole frame (marker-free body, then the marker) fed to a decoder with an
empty buffer and indexing enabled: one packet and its index are queued. -/
theorem feedAll_frame_indexed (D : DecoderOps) (crc8 : Packet → Nat) (d : DecoderBase)
    (ps : PacketQueue) (is : IndexQueue) (body rest : List Nat) (i : Nat) (p : Packet)
    (hbuf : d.buffer = []) (hi : d.b_index = true)
    (hne : body ≠ []) (hb : ∀ x ∈ body, x ≠ D.marker)
    (hdec : D.decode (body ++ [D.marker])
      = some (i :: (p ++ if d.b_crc then [crc8 p] else []))) :
    feedAll D crc8 (body ++ D.marker :: rest) (d, ps, is) =
      feedAll D crc8 rest (d.reset, ps ++ [p], is ++ [i]) := by
  rw [feedAll_accumulate D crc8 body _ ps is hb d, feedAll_cons,
    feed_frame_indexed D crc8 _ ps is i p (by simp [hbuf, hne]) (by simp [hi])
      (by simpa [hbuf] using hdec)]
  simp [reset]

end DecoderBase

/-! ## Frames of the two codecs -/

/-- The appends of any logical byte sequence after `header()` all have a
result, and `footer()` has one exactly when the count is not zero, that is
when the sequence does not end on a full block of 254 non-zero bytes. -/
theorem cobs_frame_cases (q : Packet) :
    ∃ e, q.foldlM cobs.Encoder.append (cobs.Encoder.header cobs.Encoder.create) = some e ∧
      cobs.EncInv q e ∧
      ((e.next_zero_count = 0 ∧ cobs.frame q = none) ∨
        (e.next_zero_count ≠ 0 ∧ ∃ body, cobs.frame q = some (body ++ [0]) ∧
          cobs.Decoder.decode (body ++ [0]) = q ∧ body ≠ [] ∧ (∀ x ∈ body, x ≠ 0) ∧
          body.length = e.buffer.length)) := by
  obtain ⟨e, he, hinv⟩ := cobs.encInv_foldlM q [] _ (cobs.encInv_header cobs.Encoder.create)
  simp only [List.nil_append] at hinv
  refine ⟨e, he, hinv, ?_⟩
  by_cases hc : e.next_zero_count = 0
  · left
    refine ⟨hc, ?_⟩
    simp [cobs.frame, he, cobs.encInv_footer_full q e hinv hc]
  · right
    obtain ⟨body, hf, hdec, hne, hnz, hlen⟩ := cobs.encInv_footer q e hinv hc
    exact ⟨hc, body, by simp [cobs.frame, he, hf], hdec, hne, hnz, hlen⟩

/-- A COBS frame that the encoder completes is read back by the decoder, and
it is a non-empty zero-free body followed by one zero byte. -/
theorem cobs_frame_spec (q f : Packet) (hf : cobs.frame q = some f) :
    cobs.Decoder.decode f = q ∧
      ∃ body, f = body ++ [0] ∧ body ≠ [] ∧ ∀ x ∈ body, x ≠ 0 := by
  obtain ⟨e, _, _, h | h⟩ := cobs_frame_cases q
  · rw [h.2] at hf
    exact absurd hf (by simp)
  · obtain ⟨_, body, hb, hdec, hne, hnz, _⟩ := h
    rw [hb] at hf
    simp only [Option.some.injEq] at hf
    subst hf
    exact ⟨hdec, body, rfl, hne, hnz⟩

theorem getElem?_ne_of_forall_ne (body : List Nat) (v k : Nat) (h : ∀ x ∈ body, x ≠ v)
    (hk : k < body.length) : (body ++ [v])[k]? ≠ some v := by
  rw [List.getElem?_append_left hk, List.getElem?_eq_getElem hk]
  intro hh
  simp only [Option.some.injEq] at hh
  exact h _ (List.getElem_mem hk) hh

/-! ## Whole frames through the streaming decoder -/

theorem cobs_feedAll_frame_indexed (crc8 : Packet → Nat) (d : DecoderBase)
    (ps : PacketQueue) (is : IndexQueue) (rest : List Nat) (i : Nat) (p f : Packet)
    (hbuf : d.buffer = []) (hi : d.b_index = true)
    (hframe : cobs.frame (i :: (p ++ if d.b_crc then [crc8 p] else [])) = some f) :
    DecoderBase.feedAll cobs.decoderOps crc8 (f ++ rest) (d, ps, is) =
      DecoderBase.feedAll cobs.decoderOps crc8 rest (d.reset, ps ++ [p], is ++ [i]) := by
  obtain ⟨hdec, body, hf, hne, hnz⟩ :=
    cobs_frame_spec (i :: (p ++ if d.b_crc then [crc8 p] else [])) f hframe
  rw [hf] at hdec
  rw [hf, List.append_assoc, List.singleton_append]
  exact DecoderBase.feedAll_frame_indexed cobs.decoderOps crc8 d ps is body rest i p hbuf hi
    hne hnz (by simp only [cobs.decoderOps, cobs.MARKER_END]; rw [hdec])

theorem slip_feedAll_leading_marker (crc8 : Packet → Nat) (d : DecoderBase)
    (ps : PacketQueue) (is : IndexQueue) (rest : List Nat) (hbuf : d.buffer = []) :
    DecoderBase.feedAll slip.decoderOps crc8 (slip.MARKER_END :: rest) (d, ps, is) =
      DecoderBase.feedAll slip.decoderOps crc8 rest (d.reset, ps, is) := by
  rw [DecoderBase.feedAll_cons]
  have := DecoderBase.feed_marker_empty slip.decoderOps crc8 d ps is hbuf
  simp only [slip.decoderOps] at this ⊢
  rw [this]

theorem slip_feedAll_frame_indexed (crc8 : Packet → Nat) (d : DecoderBase)
    (ps : PacketQueue) (is : IndexQueue) (rest : List Nat) (i : Nat) (p : Packet)
    (hbuf : d.buffer = []) (hi : d.b_index = true) :
    DecoderBase.feedAll slip.decoderOps crc8
        (slip.frame (i :: (p ++ if d.b_crc then [crc8 p] else [])) ++ rest) (d, ps, is) =
      DecoderBase.feedAll slip.decoderOps crc8 rest (d.reset, ps ++ [p], is ++ [i]) := by
  rw [slip.frame_eq, List.cons_append, slip_feedAll_leading_marker crc8 d ps is _ hbuf,
    List.append_assoc, List.singleton_append]
  have h := DecoderBase.feedAll_frame_indexed slip.decoderOps crc8 d.reset ps is
    ((i :: (p ++ if d.b_crc then [crc8 p] else [])).flatMap slip.escape) rest i p rfl
    (by simp [DecoderBase.reset, hi])
    (slip.flatMap_escape_ne_nil _ (by simp))
    (slip.flatMap_escape_no_marker _)
    (slip.decode_body _)
  simpa [DecoderBase.reset, slip.decoderOps] using h

/-- After a marker-free body and the marker, the decoder is not mid-frame,
whichever way the frame was disposed of. -/
theorem feedAll_closed_parsing (D : DecoderOps) (crc8 : Packet → Nat) (body : List Nat)
    (d : DecoderBase) (ps : PacketQueue) (is : IndexQueue)
    (s : DecoderBase × PacketQueue × IndexQueue)
    (hb : ∀ x ∈ body, x ≠ D.marker)
    (h : DecoderBase.feedAll D crc8 (body ++ [D.marker]) (d, ps, is) = some s) :
    s.1.parsing = false := by
  rw [DecoderBase.feedAll_accumulate D crc8 body _ ps is hb d, DecoderBase.feedAll_cons] at h
  split at h
  · exact absurd h (by simp)
  · next s1 hs1 =>
    simp only [DecoderBase.feedAll, Option.some.injEq] at h
    subst h
    exact (DecoderBase.feed_marker_parsing D crc8 _ ps is s1 hs1).1

/-! ## The mid-frame flag on a frame and on its proper prefixes -/

theorem cobs_frame_closed (crc8 : Packet → Nat) (d : DecoderBase) (ps : PacketQueue)
    (is : IndexQueue) (q f : Packet) (s : DecoderBase × PacketQueue × IndexQueue)
    (hframe : cobs.frame q = some f)
    (h : DecoderBase.feedAll cobs.decoderOps crc8 f (d, ps, is) = some s) :
    s.1.parsing = false := by
  obtain ⟨body, hf, _, hnz⟩ := (cobs_frame_spec q f hframe).2
  rw [hf] at h
  exact feedAll_closed_parsing cobs.decoderOps crc8 body d ps is s hnz h

theorem slip_frame_closed (crc8 : Packet → Nat) (d : DecoderBase) (ps : PacketQueue)
    (is : IndexQueue) (q : Packet) (s : DecoderBase × PacketQueue × IndexQueue)
    (hbuf : d.buffer = [])
    (h : DecoderBase.feedAll slip.decoderOps crc8 (slip.frame q) (d, ps, is) = some s) :
    s.1.parsing = false := by
  rw [slip.frame_eq, slip_feedAll_leading_marker crc8 d ps is _ hbuf] at h
  exact feedAll_closed_parsing slip.decoderOps crc8 _ d.reset ps is s
    (slip.flatMap_escape_no_marker q) h

/-! ## COBS: a block of non-zero bytes -/

namespace cobs

/-- Non-zero bytes that do not fill the block are copied behind the pending
placeholder and counted. -/
theorem foldlM_append_run (run : Packet) (hnz : ∀ x ∈ run, x ≠ 0) :
    ∀ e : Encoder, e.next_zero_count ≠ 0 → e.next_zero_count + run.length ≤ 254 →
      run.foldlM Encoder.append e =
        some { e with buffer := e.buffer ++ run,
                      next_zero_count := e.next_zero_count + run.length } := by
  induction run with
  | nil => intro e _ _; simp
  | cons x xs ih =>
    intro e h0 hlen
    simp only [List.length_cons] at hlen
    have hx : x ≠ 0 := hnz x (by simp)
    rw [List.foldlM_cons, append_nonzero e x h0 hx (by omega)]
    simp only [Option.bind_eq_bind, Option.some_bind]
    rw [ih (fun y hy => hnz y (by simp [hy])) _ (by simp) (by simp; omega)]
    simp
    omega

/-- A full block: 254 non-zero bytes appended to a state whose placeholder has
just been opened. The placeholder is backfilled with `0xFF`, the count is `0`
and the index of the next placeholder is the size of the buffer. -/
theorem foldlM_append_block (q : Packet) (hlen : q.length = 254)
    (hnz : ∀ x ∈ q, x ≠ 0) (pre : Packet) (v : Nat) :
    q.foldlM Encoder.append
        { buffer := pre ++ [v], next_zero_count := 1, next_zero_index := pre.length } =
      some { buffer := pre ++ 255 :: q, next_zero_count := 0,
             next_zero_index := pre.length + 255 } := by
  have hne : q ≠ [] := by
    intro h
    rw [h] at hlen
    simp at hlen
  have hq := (List.dropLast_append_getLast hne).symm
  have hdl : q.dropLast.length = 253 := by simp [hlen]
  have hd : q.getLast hne ≠ 0 := hnz _ (List.getLast_mem hne)
  have hrun := foldlM_append_run q.dropLast
    (fun x hx => hnz x (List.mem_of_mem_dropLast hx))
    { buffer := pre ++ [v], next_zero_count := 1, next_zero_index := pre.length }
    (by simp) (by simp [hdl])
  have hst : store (pre ++ [v] ++ q.dropLast ++ [q.getLast hne]) pre.length 255
      = some (pre ++ 255 :: (q.dropLast ++ [q.getLast hne])) := by
    have := store_at_length pre (q.dropLast ++ [q.getLast hne]) v 255
    simpa using this
  conv_lhs => rw [hq]
  rw [List.foldlM_append, hrun]
  simp only [Option.bind_eq_bind, Option.some_bind, List.foldlM_cons, List.foldlM_nil]
  rw [append_nonzero_full _ _ hd (by simp [hdl])]
  simp only [hst, Option.map_some', Option.bind_some, Option.some_bind]
  rw [← hq]
  simp [hlen]

/-- The encoder after `header()` and exactly 254 non-zero bytes. -/
theorem foldlM_append_full_block (q : Packet) (hlen : q.length = 254)
    (hnz : ∀ x ∈ q, x ≠ 0) (e : Encoder) :
    q.foldlM Encoder.append (Encoder.header e) =
      some { buffer := 255 :: q, next_zero_count := 0, next_zero_index := 255 } := by
  have h := foldlM_append_block q hlen hnz [] MARKER_DUMMY
  simpa [Encoder.header] using h

/-- The `footer` right after a full block stores at `size()`. -/
theorem footer_full_block (q : Packet) (hlen : q.length = 254) :
    Encoder.footer { buffer := 255 :: q, next_zero_count := 0, next_zero_index := 255 }
      = none := by
  have h := store_at_size (255 :: q) 0
  rw [List.length_cons, hlen] at h
  simp [Encoder.footer, h]

/-- There is no frame of exactly 254 non-zero bytes. -/
theorem frame_full_block (q : Packet) (hlen : q.length = 254) (hnz : ∀ x ∈ q, x ≠ 0) :
    frame q = none := by
  rw [frame, foldlM_append_full_block q hlen hnz]
  simp [footer_full_block q hlen]

theorem replicate_one_ne_zero (n : Nat) : ∀ x ∈ List.replicate n 1, x ≠ 0 := by
  intro x hx
  rw [List.eq_of_mem_replicate hx]
  decide

/-- After an appended zero byte the placeholder just opened is the last
element of the buffer and the count is `1`. -/
theorem append_zero_state (q : Packet) (e : Encoder) (h : EncInv q e) :
    ∃ pre, Encoder.append e 0 =
      some { buffer := pre ++ [0], next_zero_count := 1, next_zero_index := pre.length } := by
  cases h with
  | full hc hi _ _ _ =>
    rw [append_after_full e 0 hc, append_zero _ (by simp)]
    simp only
    rw [store_at_length e.buffer [] 0 1]
    exact ⟨e.buffer ++ [1], by simp⟩
  | pending pre run pk nz h1 h2 hb hi hl _ _ _ _ =>
    rw [append_zero e (by omega), hb, hi, store_at_length]
    exact ⟨pre ++ e.next_zero_count :: run, by simp⟩

end cobs

/-! ## COBS: the length of the frame -/

namespace cobs

theorem store_length (buffer b : Packet) (i v : Nat) (h : store buffer i v = some b) :
    b.length = buffer.length := by
  unfold store at h
  split at h
  · simp only [Option.some.injEq] at h
    rw [← h]
    simp
  · exact absurd h (by simp)

theorem lenInv_header (e : Encoder) : LenInv 0 (Encoder.header e) := by
  refine ⟨by simp [Encoder.header], 0, by simp [Encoder.header], ?_, ?_⟩
  · intro h
    simp [Encoder.header] at h
  · intro _
    simp [Encoder.header]

theorem lenInv_append_pending (n k : Nat) (e e1 : Encoder) (data : Nat)
    (hc : e.next_zero_count ≠ 0) (hle : e.next_zero_count ≤ 254)
    (hlen : e.buffer.length = n + 1 + k)
    (h1 : 254 * k + e.next_zero_count ≤ n + 1) (h2 : 0 < k → 254 * k + 1 ≤ n + 1)
    (happ : Encoder.append e data = some e1) :
    LenInv (n + 1) e1 := by
  by_cases hd : data = 0
  · subst hd
    rw [append_zero e hc] at happ
    cases hs : store e.buffer e.next_zero_index e.next_zero_count with
    | none => simp [hs] at happ
    | some b =>
      have hb := store_length _ _ _ _ hs
      simp only [hs, Option.map_some', Option.some.injEq] at happ
      subst happ
      refine ⟨by simp, k, ?_, ?_, ?_⟩
      · simp only [List.length_append, hb, hlen, List.length_singleton]
        omega
      · intro h
        simp at h
      · intro _
        simp only
        exact ⟨by omega, h2⟩
  · by_cases hfull : e.next_zero_count = 254
    · rw [append_nonzero_full e data hd hfull] at happ
      cases hs : store (e.buffer ++ [data]) e.next_zero_index 255 with
      | none => simp [hs] at happ
      | some b =>
        have hb := store_length _ _ _ _ hs
        simp only [hs, Option.map_some', Option.some.injEq] at happ
        subst happ
        refine ⟨by simp, k, ?_, ?_, ?_⟩
        · simp only [hb, List.length_append, hlen, List.length_singleton]
          omega
        · intro _
          omega
        · intro h
          simp at h
    · rw [append_nonzero e data hc hd (by omega)] at happ
      simp only [Option.some.injEq] at happ
      subst happ
      refine ⟨by simp only; omega, k, ?_, ?_, ?_⟩
      · simp only [List.length_append, hlen, List.length_singleton]
        omega
      · intro h
        simp only at h
        omega
      · intro _
        simp only
        exact ⟨by omega, h2⟩

theorem lenInv_append (n : Nat) (e e1 : Encoder) (data : Nat) (h : LenInv n e)
    (happ : Encoder.append e data = some e1) : LenInv (n + 1) e1 := by
  obtain ⟨hle, k, hlen, hfull, hpend⟩ := h
  by_cases hc : e.next_zero_count = 0
  · rw [append_after_full e data hc] at happ
    have := hfull hc
    exact lenInv_append_pending n (k + 1) _ e1 data (by simp) (by simp)
      (by simp only [List.length_append, hlen, List.length_singleton]; omega)
      (by simp only; omega) (by intro _; omega) happ
  · obtain ⟨h1, h2⟩ := hpend hc
    exact lenInv_append_pending n k e e1 data hc hle hlen h1
      (fun hk => by have := h2 hk; omega) happ

theorem lenInv_foldlM (bytes : Packet) :
    ∀ (n : Nat) (e e1 : Encoder), LenInv n e → bytes.foldlM Encoder.append e = some e1 →
      LenInv (n + bytes.length) e1 := by
  induction bytes with
  | nil =>
    intro n e e1 h hf
    simp only [List.foldlM_nil, Option.pure_def, Option.some.injEq] at hf
    subst hf
    simpa using h
  | cons b bs ih =>
    intro n e e1 h hf
    rw [List.foldlM_cons] at hf
    cases ha : Encoder.append e b with
    | none => simp [ha] at hf
    | some e2 =>
      simp only [ha, Option.bind_eq_bind, Option.some_bind] at hf
      have := ih (n + 1) e2 e1 (lenInv_append n e e2 b h ha) hf
      simp only [List.length_cons]
      have heq : n + (bs.length + 1) = n + 1 + bs.length := by omega
      rw [heq]
      exact this

end cobs

/-- A frame of `n` logical bytes that the encoder completes has `n + 2` bytes
plus one for every placeholder opened after a full block, of which there are
at most `(n - 1) / 254`. -/
theorem cobs_frame_length_bounds (q f : Packet) (hf : cobs.frame q = some f) :
    q.length + 2 ≤ f.length ∧ f.length ≤ q.length + 2 + (q.length - 1) / 254 := by
  obtain ⟨e, he, _, h | h⟩ := cobs_frame_cases q
  · rw [h.2] at hf
    exact absurd hf (by simp)
  · obtain ⟨hc, body, hb, _, _, _, hlen⟩ := h
    rw [hb] at hf
    simp only [Option.some.injEq] at hf
    subst hf
    have hl := cobs.lenInv_foldlM q 0 _ e (cobs.lenInv_header cobs.Encoder.create) he
    obtain ⟨_, k, hklen, _, hpend⟩ := hl
    have := (hpend hc).2
    simp only [List.length_append, List.length_singleton, hlen, hklen]
    refine ⟨by omega, ?_⟩
    by_cases hk : 0 < k
    · have := this hk
      omega
    · omega

/-- In every reachable state the mid-frame flag says whether the accumulation
buffer is non-empty, and the buffer holds no marker byte. -/
theorem reachable_inv (D : DecoderOps) (crc8 : Packet → Nat) (d : DecoderBase)
    (h : DecoderBase.Reachable D crc8 d) :
    (d.b_parsing = true ↔ d.buffer ≠ []) ∧ ∀ x ∈ d.buffer, x ≠ D.marker := by
  induction h with
  | create bi bc => simp [DecoderBase.create]
  | feed d d1 data ps ps1 is is1 _ hfeed ih =>
    by_cases hm : data = D.marker
    · subst hm
      have := DecoderBase.feed_marker_parsing D crc8 d ps is _ hfeed
      simp only at this
      simp [this.1, this.2]
    · rw [DecoderBase.feed_plain D crc8 d data ps is hm] at hfeed
      simp only [Option.some.injEq, Prod.mk.injEq] at hfeed
      rw [← hfeed.1]
      refine ⟨by simp, ?_⟩
      intro x hx
      simp only [List.mem_append, List.mem_singleton] at hx
      rcases hx with hx | hx
      · exact ih.2 x hx
      · rw [hx]; exact hm
  | reset d _ _ => simp [DecoderBase.reset]
  | indexing d b _ ih => simpa [DecoderBase.setIndexing] using ih
  | verifying d b _ ih => simpa [DecoderBase.setVerifying] using ih

/-! ## SLIP: the positions the decoder reads -/

namespace slip

theorem readPositions_marker (i : Nat) (src : List Nat) :
    Decoder.readPositions i (MARKER_END :: src) = i :: Decoder.readPositions (i + 1) src := by
  rw [Decoder.readPositions.eq_def]
  simp

theorem readPositions_plain (i b : Nat) (src : List Nat)
    (h1 : b ≠ MARKER_END) (h2 : b ≠ MARKER_ESC) :
    Decoder.readPositions i (b :: src) = i :: Decoder.readPositions (i + 1) src := by
  rw [Decoder.readPositions.eq_def]
  simp [h1, h2]

theorem readPositions_escape (i n : Nat) (src : List Nat) :
    Decoder.readPositions i (MARKER_ESC :: n :: src)
      = i :: (i + 1) :: Decoder.readPositions (i + 2) src := by
  rw [Decoder.readPositions.eq_def]
  simp [MARKER_ESC, MARKER_END]

theorem decodeLoop_escape_pair (n : Nat) (src : List Nat) (pk : Packet) :
    ∃ pk1, Decoder.decodeLoop (MARKER_ESC :: n :: src) pk = Decoder.decodeLoop src pk1 := by
  rw [Decoder.decodeLoop.eq_def]
  simp only [MARKER_ESC, MARKER_END]
  by_cases h1 : n = MARKER_ESC_END
  · exact ⟨pk ++ [MARKER_END], by simp [h1, MARKER_END]⟩
  · by_cases h2 : n = MARKER_ESC_ESC
    · exact ⟨pk ++ [MARKER_ESC], by subst h2; simp [MARKER_ESC, MARKER_ESC_ESC, MARKER_ESC_END]⟩
    · exact ⟨pk, by simp [h1, h2]⟩

/-- On an input whose last byte is not the escape byte, the decoder reads only
positions inside the input and returns a packet. -/
theorem reads_in_bounds :
    ∀ (n : Nat) (l : List Nat) (i : Nat), l.length ≤ n → l.getLast? ≠ some MARKER_ESC →
      (∀ x ∈ Decoder.readPositions i l, x < i + l.length) ∧
        ∀ pk, (Decoder.decodeLoop l pk).isSome = true := by
  intro n
  induction n with
  | zero =>
    intro l i hlen _
    have : l = [] := List.length_eq_zero.mp (Nat.le_zero.mp hlen)
    subst this
    simp [Decoder.readPositions, Decoder.decodeLoop]
  | succ n ih =>
    intro l i hlen hlast
    match l, hlen, hlast with
    | [], _, _ => simp [Decoder.readPositions, Decoder.decodeLoop]
    | [b], _, hlast =>
      have hb : b ≠ MARKER_ESC := by
        intro h
        exact hlast (by simp [h])
      by_cases h1 : b = MARKER_END
      · subst h1
        rw [readPositions_marker]
        refine ⟨by simp [Decoder.readPositions], ?_⟩
        intro pk
        rw [decodeLoop_marker]
        simp [Decoder.decodeLoop]
      · rw [readPositions_plain i b [] h1 hb]
        refine ⟨by simp [Decoder.readPositions], ?_⟩
        intro pk
        rw [decodeLoop_plain b [] pk h1 hb]
        simp [Decoder.decodeLoop]
    | b :: c :: rest, hlen, hlast =>
      simp only [List.length_cons] at hlen
      rw [List.getLast?_cons_cons] at hlast
      by_cases h1 : b = MARKER_END
      · subst h1
        obtain ⟨hp, hd⟩ := ih (c :: rest) (i + 1) (by simp only [List.length_cons]; omega) hlast
        rw [readPositions_marker]
        refine ⟨?_, ?_⟩
        · intro x hx
          simp only [List.mem_cons] at hx
          rcases hx with hx | hx
          · simp only [List.length_cons]; omega
          · have := hp x (by simpa using hx)
            simp only [List.length_cons] at this ⊢
            omega
        · intro pk
          rw [decodeLoop_marker]
          exact hd pk
      · by_cases h2 : b = MARKER_ESC
        · subst h2
          have hrest : rest.getLast? ≠ some MARKER_ESC := by
            cases rest with
            | nil => simp
            | cons r rs => rwa [List.getLast?_cons_cons] at hlast
          obtain ⟨hp, hd⟩ := ih rest (i + 2) (by omega) hrest
          rw [readPositions_escape]
          refine ⟨?_, ?_⟩
          · intro x hx
            simp only [List.mem_cons] at hx
            rcases hx with hx | hx | hx
            · simp only [List.length_cons]; omega
            · simp only [List.length_cons]; omega
            · have := hp x hx
              simp only [List.length_cons]
              omega
          · intro pk
            obtain ⟨pk1, hpk⟩ := decodeLoop_escape_pair c rest pk
            rw [hpk]
            exact hd pk1
        · obtain ⟨hp, hd⟩ := ih (c :: rest) (i + 1) (by simp only [List.length_cons]; omega) hlast
          rw [readPositions_plain i b _ h1 h2]
          refine ⟨?_, ?_⟩
          · intro x hx
            simp only [List.mem_cons] at hx
            rcases hx with hx | hx
            · simp only [List.length_cons]; omega
            · have := hp x (by simpa using hx)
              simp only [List.length_cons] at this ⊢
              omega
          · intro pk
            rw [decodeLoop_plain b _ pk h1 h2]
            exact hd _

/-- The buffer `feed` passes to `decode`: marker-free bytes and the marker. -/
theorem reads_in_bounds_closed (body : List Nat) :
    (∀ x ∈ Decoder.readPositions 0 (body ++ [MARKER_END]), x < (body ++ [MARKER_END]).length) ∧
      (Decoder.decode (body ++ [MARKER_END])).isSome = true := by
  have h := reads_in_bounds (body ++ [MARKER_END]).length (body ++ [MARKER_END]) 0
    (Nat.le_refl _) (by simp [MARKER_END, MARKER_ESC])
  refine ⟨?_, h.2 []⟩
  intro x hx
  have := h.1 x hx
  omega

end slip

/-! ## The error counter -/

theorem feed_errors_unchanged (D : DecoderOps) (crc8 : Packet → Nat) (d : DecoderBase)
    (data : Nat) (ps : PacketQueue) (is : IndexQueue)
    (s : DecoderBase × PacketQueue × IndexQueue)
    (h : DecoderBase.feed D crc8 d data ps is = some s)
    (hc : ¬ (data = D.marker ∧ d.buffer ≠ [] ∧ d.b_crc = true)) :
    s.1.err_count = d.err_count := by
  by_cases hm : data = D.marker
  · by_cases hb : d.buffer = []
    · subst hm
      rw [DecoderBase.feed_marker_empty D crc8 d ps is hb] at h
      simp only [Option.some.injEq] at h
      subst h
      rfl
    · have hcrc : d.b_crc = false := by
        cases hcc : d.b_crc
        · rfl
        · exact absurd ⟨hm, hb, hcc⟩ hc
      unfold DecoderBase.feed at h
      simp only [hm, if_true, hb, ne_eq, not_false_eq_true, hcrc, Bool.false_eq_true,
        if_false] at h
      split at h
      · exact absurd h (by simp)
      · split at h
        · exact absurd h (by simp)
        · simp only [Option.some.injEq] at h
          subst h
          rfl
  · rw [DecoderBase.feed_plain D crc8 d data ps is hm] at h
    simp only [Option.some.injEq] at h
    subst h
    rfl

theorem feed_errors_checked (D : DecoderOps) (crc8 : Packet → Nat) (d : DecoderBase)
    (ps : PacketQueue) (is : IndexQueue) (s : DecoderBase × PacketQueue × IndexQueue)
    (packet : Packet)
    (h : DecoderBase.feed D crc8 d D.marker ps is = some s)
    (hb : d.buffer ≠ []) (hcrc : d.b_crc = true)
    (hdec : D.decode (d.buffer ++ [D.marker]) = some packet) :
    ∃ back, (if d.b_index then packet.drop 1 else packet).getLast? = some back ∧
      s.1.err_count =
        if crc8 (if d.b_index then packet.drop 1 else packet).dropLast = back then d.err_count
        else (d.err_count + 1) % 2 ^ 32 := by
  unfold DecoderBase.feed at h
  simp only [if_true, hb, ne_eq, not_false_eq_true, hcrc, hdec] at h
  cases hi : d.b_index
  · simp only [hi, Bool.false_eq_true, if_false] at h ⊢
    cases hl : packet.getLast? with
    | none => simp [hl] at h
    | some back =>
      refine ⟨back, rfl, ?_⟩
      simp only [hl] at h
      by_cases hcmp : crc8 packet.dropLast = back
      · simp only [hcmp, if_true, Option.some.injEq] at h ⊢
        subst h
        rfl
      · simp only [hcmp, if_false, Option.some.injEq] at h ⊢
        subst h
        rfl
  · simp only [hi, if_true] at h ⊢
    cases packet with
    | nil => simp at h
    | cons x rest =>
      simp only [List.drop_succ_cons, List.drop_zero] at h ⊢
      cases hl : rest.getLast? with
      | none => simp [hl] at h
      | some back =>
        refine ⟨back, rfl, ?_⟩
        simp only [hl] at h
        by_cases hcmp : crc8 rest.dropLast = back
        · simp only [hcmp, if_true, Option.some.injEq] at h ⊢
          subst h
          rfl
        · simp only [hcmp, if_false, Option.some.injEq] at h ⊢
          subst h
          rfl

/-! ## Completion of `feed` on a terminator -/

/-- The `footer` of a state left by a full block stores at `size()`. -/
theorem cobs_footer_after_block (pre q : Packet) (hlen : q.length = 254) :
    cobs.Encoder.footer
      { buffer := pre ++ 255 :: q, next_zero_count := 0, next_zero_index := pre.length + 255 }
      = none := by
  have h := cobs.store_at_size (pre ++ 255 :: q) 0
  rw [List.length_append, List.length_cons, hlen] at h
  simp [cobs.Encoder.footer, h]

/-- There is no frame of a zero byte followed by exactly 254 non-zero bytes. -/
theorem cobs_frame_zero_full_block (q : Packet) (hlen : q.length = 254)
    (hnz : ∀ x ∈ q, x ≠ 0) : cobs.frame (0 :: q) = none := by
  have h0 : cobs.Encoder.append (cobs.Encoder.header cobs.Encoder.create) 0 =
      some { buffer := [1] ++ [0], next_zero_count := 1, next_zero_index := [1].length } := by
    decide
  have hb := cobs.foldlM_append_block q hlen hnz [1] 0
  rw [cobs.frame, List.foldlM_cons, h0]
  simp only [Option.bind_eq_bind, Option.some_bind]
  rw [hb]
  simp only [Option.some_bind]
  rw [cobs_footer_after_block [1] q hlen]
  rfl

theorem cobs_encode_none (crc8 : Packet → Nat) (e : cobs.Encoder) (index : Nat)
    (src : Packet) (b_crc : Bool)
    (h : cobs.frame (index :: (src ++ if b_crc then [crc8 src] else [])) = none) :
    EncoderBase.encode cobs.encoderOps crc8 e index src b_crc = none := by
  have := cobs_encode_buffer crc8 e index src b_crc
  rw [h] at this
  simpa using this

theorem slip_encode_some (crc8 : Packet → Nat) (e : slip.Encoder) (index : Nat)
    (src : Packet) (b_crc : Bool) :
    ∃ s, EncoderBase.encode slip.encoderOps crc8 e index src b_crc = some s ∧
      s.buffer = slip.frame (index :: (src ++ if b_crc then [crc8 src] else [])) := by
  have h := slip_encode_buffer crc8 e index src b_crc
  cases hs : EncoderBase.encode slip.encoderOps crc8 e index src b_crc with
  | none => simp [hs] at h
  | some s => exact ⟨s, rfl, by simpa [hs] using h⟩

/-- In a state reached from `header()` in which no non-zero byte has been
counted since the last placeholder (the count is 1, or it is 0 and the next
`append` opens the placeholder), 254 appended non-zero bytes backfill that
placeholder with `0xFF` and leave the count at `0`. -/
theorem cobs_block_backfill (e0 e1 : cobs.Encoder) (q0 run : Packet)
    (h1 : q0.foldlM cobs.Encoder.append (cobs.Encoder.header e0) = some e1)
    (hfresh : e1.next_zero_count ≤ 1) (hlen : run.length = 254) (hnz : ∀ x ∈ run, x ≠ 0) :
    ∃ e2, run.foldlM cobs.Encoder.append e1 = some e2 ∧ e2.next_zero_count = 0 ∧
      e2.buffer[if e1.next_zero_count = 0 then e1.buffer.length else e1.next_zero_index]?
        = some 255 := by
  obtain ⟨e1x, he1x, hinv⟩ := cobs.encInv_foldlM q0 [] _ (cobs.encInv_header e0)
  rw [h1] at he1x
  simp only [Option.some.injEq] at he1x
  subst he1x
  cases hinv with
  | full hc hi _ _ _ =>
    have hstart : run.foldlM cobs.Encoder.append e1 =
        run.foldlM cobs.Encoder.append
          { buffer := e1.buffer ++ [0], next_zero_count := 1,
            next_zero_index := e1.buffer.length } := by
      cases run with
      | nil => simp at hlen
      | cons x xs => rw [List.foldlM_cons, List.foldlM_cons, cobs.append_after_full e1 x hc]
    rw [hstart, cobs.foldlM_append_block run hlen hnz e1.buffer 0]
    refine ⟨_, rfl, rfl, ?_⟩
    simp only [hc, if_true]
    rw [List.getElem?_append_right (Nat.le_refl _)]
    simp
  | pending pre r pk nz hc1 _ hb hi hl _ _ _ _ =>
    have hr : r = [] := by
      have : r.length = 0 := by omega
      exact List.length_eq_zero.mp this
    subst hr
    have hc : e1.next_zero_count = 1 := by omega
    have he : e1 = { buffer := pre ++ [0], next_zero_count := 1,
                     next_zero_index := pre.length } := by
      cases e1
      simp_all
    rw [he, cobs.foldlM_append_block run hlen hnz pre 0]
    refine ⟨_, rfl, rfl, ?_⟩
    simp only [Nat.one_ne_zero, if_false]
    rw [List.getElem?_append_right (Nat.le_refl _)]
    simp

/-- With the CRC enabled, the frame of a payload of exactly 254 non-zero bytes
is complete and starts with `0xFF`. -/
theorem cobs_encodeNoIndex_full_block (crc8 : Packet → Nat) (e : cobs.Encoder) (p : Packet)
    (hlen : p.length = 254) (hnz : ∀ x ∈ p, x ≠ 0) :
    ∃ s, EncoderBase.encodeNoIndex cobs.encoderOps crc8 e p true = some s ∧
      s.buffer.head? = some 255 := by
  have hfold := cobs.foldlM_append_full_block p hlen hnz e
  simp only [EncoderBase.encodeNoIndex, cobs.encoderOps, hfold, Option.some_bind, if_true]
  rw [cobs.append_after_full _ _ rfl]
  by_cases hd : crc8 p = 0
  · have hst1 : store (255 :: (p ++ [0])) (p.length + 1) 1 = some (255 :: (p ++ [1])) := by
      simpa using cobs.store_at_length (255 :: p) [] 0 1
    have hst2 : store (255 :: (p ++ [1, 0])) (p.length + 1 + 1) 1
        = some (255 :: (p ++ [1, 1])) := by
      have h := cobs.store_at_length (255 :: (p ++ [1])) [] 0 1
      simp only [List.cons_append, List.append_assoc, List.singleton_append, List.length_cons,
        List.length_append, List.length_singleton] at h
      exact h
    refine ⟨{ buffer := 255 :: (p ++ [1, 1, 0]), next_zero_count := 1,
              next_zero_index := p.length + 1 + 1 }, ?_, rfl⟩
    rw [hd, cobs.append_zero _ (by simp)]
    simp [cobs.Encoder.footer, hst1, hst2, cobs.MARKER_END]
  · have hst : store (255 :: (p ++ [0, crc8 p])) (p.length + 1) 2
        = some (255 :: (p ++ [2, crc8 p])) := by
      simpa using cobs.store_at_length (255 :: p) [crc8 p] 0 2
    refine ⟨{ buffer := 255 :: (p ++ [2, crc8 p, 0]), next_zero_count := 2,
              next_zero_index := p.length + 1 }, ?_, rfl⟩
    rw [cobs.append_nonzero _ _ (by simp) hd (by simp)]
    simp [cobs.Encoder.footer, hst, cobs.MARKER_END]

/-! ## The claims -/

/-- C1, at a failing input. `header()`, `append` of 254 bytes of value 1, then
`footer()`: the appends complete, but `footer()` stores at the position
`size()` and has no result, so the encoder leaves no frame for `decode`. -/
theorem cobs_round_trip_full_block :
    (((List.replicate 254 1).foldlM cobs.Encoder.append
        (cobs.Encoder.header cobs.Encoder.create)).bind cobs.Encoder.footer).map
      (fun e => cobs.Decoder.decode e.buffer) = none := by
  rw [cobs.foldlM_append_full_block _ (List.length_replicate 254 1)
    (cobs.replicate_one_ne_zero 254)]
  simp only [Option.some_bind]
  rw [cobs.footer_full_block _ (List.length_replicate 254 1)]
  rfl

/-- C2. SLIP codec round trip: for every byte sequence `p`, the SLIP decoder's
`decode` applied to the whole frame produced by `header()`, `append` of each
byte of `p` in order, `footer()` returns exactly `p` (and reads only inside the
frame). -/
theorem slip_round_trip (p : Packet) :
    slip.Decoder.decode
      (slip.Encoder.footer
        (p.foldl slip.Encoder.append (slip.Encoder.header slip.Encoder.create))).buffer
      = some p :=
  slip.decode_frame p

/-- C3, at a failing input. `encode(1, src, 253, false)` with 253 bytes of
value 1: the 254 logical bytes fill a block, `footer()` stores at the position
`size()`, and `encode` leaves no frame. -/
theorem cobs_terminator_full_block (crc8 : Packet → Nat) (e : cobs.Encoder) :
    EncoderBase.encode cobs.encoderOps crc8 e 1 (List.replicate 253 1) false = none := by
  apply cobs_encode_none
  have h : (1 :: (List.replicate 253 1 ++ if false = true then [crc8 (List.replicate 253 1)]
      else [])) = List.replicate 254 1 := by
    simp only [Bool.false_eq_true, if_false, List.append_nil]
    exact (List.replicate_succ (n := 253) (a := 1)).symm
  rw [h]
  exact cobs.frame_full_block _ (List.length_replicate 254 1) (cobs.replicate_one_ne_zero 254)

/-- C4. SLIP escaping invariant: for every sequence `q` of logical bytes
appended between `header()` and `footer()`, the frame is `0xC0`, a body, `0xC0`,
where the body has no `0xC0` byte and every `0xDB` byte of the body is
immediately followed, inside the body, by `0xDC` or `0xDD`. -/
theorem slip_escaping_invariant (q : Packet) :
    ∃ body : List Nat, slip.frame q = 0xC0 :: (body ++ [0xC0]) ∧
      (∀ x ∈ body, x ≠ 0xC0) ∧
      ∀ k, body[k]? = some 0xDB → body[k + 1]? = some 0xDC ∨ body[k + 1]? = some 0xDD :=
  ⟨q.flatMap slip.escape, slip.frame_eq q, slip.flatMap_escape_no_marker q,
    slip.escapesClosed_flatMap q⟩

/-- C4, instance: the body of the frame of the single logical byte `DB`
starts with the escape byte, and the byte after it is `DC` or `DD`. -/
theorem slip_escaping_invariant_witness :
    ∃ body : List Nat, slip.frame [0xDB] = 0xC0 :: (body ++ [0xC0]) ∧
      body[0]? = some 0xDB ∧ (body[0 + 1]? = some 0xDC ∨ body[0 + 1]? = some 0xDD) := by
  obtain ⟨body, hf, _, hesc⟩ := slip_escaping_invariant [0xDB]
  have hframe : slip.frame [0xDB] = 0xC0 :: ([0xDB, 0xDD] ++ [0xC0]) := by decide
  have hb : body = [0xDB, 0xDD] := by
    rw [hframe] at hf
    exact (List.append_cancel_right (List.cons.inj hf).2).symm
  have h0 : body[0]? = some 0xDB := by rw [hb]; rfl
  exact ⟨body, hf, h0, hesc 0 h0⟩

/-- C5, at a failing input, and the SLIP half. COBS `encode(0, src, 254,
false)` with 254 bytes of value 1 ends on a full block and `footer()` stores
at the position `size()`: there is no frame to feed. For SLIP the round trip
holds for every index, payload, CRC setting and crc8 function. -/
theorem stream_round_trip_indexed_full_block (crc8 : Packet → Nat) (i : Nat) (p : Packet)
    (c : Bool) (ec : cobs.Encoder) (es : slip.Encoder) :
    EncoderBase.encode cobs.encoderOps crc8 ec 0 (List.replicate 254 1) false = none ∧
    ∃ s, EncoderBase.encode slip.encoderOps crc8 es i p c = some s ∧
      DecoderBase.feedAll slip.decoderOps crc8 s.buffer (DecoderBase.create true c, [], [])
        = some ({ buffer := [], b_index := true, b_crc := c, b_parsing := false,
                  err_count := 0 }, [p], [i]) := by
  constructor
  · apply cobs_encode_none
    simp only [Bool.false_eq_true, if_false, List.append_nil]
    exact cobs_frame_zero_full_block _ (List.length_replicate 254 1)
      (cobs.replicate_one_ne_zero 254)
  · obtain ⟨s, hs, hbuf⟩ := slip_encode_some crc8 es i p c
    refine ⟨s, hs, ?_⟩
    have h := slip_feedAll_frame_indexed crc8 (DecoderBase.create true c) [] [] [] i p rfl rfl
    rw [hbuf]
    simpa [DecoderBase.create, DecoderBase.reset, DecoderBase.feedAll] using h

/-- C7, at a failing input. COBS decoder, indexing off, verifying on, the
accumulation buffer holding `02 x` with `x` different from `crc8` of the empty
sequence: on the terminator the CRC comparison fails, the PacketQueue is
unchanged and `errors()` goes from 0 to 1, but the IndexQueue has gained the
entry `0`. -/
theorem crc_mismatch_enqueues_index (crc8 : Packet → Nat) (ps : PacketQueue) (is : IndexQueue) :
    DecoderBase.feed cobs.decoderOps crc8
        { buffer := [2, if crc8 [] = 1 then 2 else 1], b_index := false, b_crc := true,
          b_parsing := true, err_count := 0 } 0 ps is
      = some ({ buffer := [], b_index := false, b_crc := true, b_parsing := false,
                err_count := 1 }, ps, is ++ [0]) := by
  by_cases h : crc8 [] = 1
  · simp [DecoderBase.feed, DecoderBase.reset, cobs.decoderOps, cobs.Decoder.decode,
      cobs.Decoder.decodeLoop, cobs.MARKER_END, h]
  · simp [DecoderBase.feed, DecoderBase.reset, cobs.decoderOps, cobs.Decoder.decode,
      cobs.Decoder.decodeLoop, cobs.MARKER_END, h]

/-- C8, at a failing input. A fresh COBS decoder with indexing off and
verifying on, fed the stream `02 x 00` with `x` different from `crc8` of the
empty sequence, ends with an empty PacketQueue and a one-element IndexQueue. -/
theorem queues_diverge_after_crc_mismatch (crc8 : Packet → Nat) :
    DecoderBase.feedAll cobs.decoderOps crc8 [2, if crc8 [] = 1 then 2 else 1, 0]
        (DecoderBase.create false true, [], [])
      = some ({ buffer := [], b_index := false, b_crc := true, b_parsing := false,
                err_count := 1 }, [], [0]) := by
  by_cases h : crc8 [] = 1
  · simp [DecoderBase.feedAll, DecoderBase.feed, DecoderBase.reset, DecoderBase.create,
      cobs.decoderOps, cobs.Decoder.decode, cobs.Decoder.decodeLoop, cobs.MARKER_END, h]
  · simp [DecoderBase.feedAll, DecoderBase.feed, DecoderBase.reset, DecoderBase.create,
      cobs.decoderOps, cobs.Decoder.decode, cobs.Decoder.decodeLoop, cobs.MARKER_END, h]

/-- C9, at a failing input, and the SLIP half. COBS: `encode(1, {2}, 1,
false)` leaves the frame `03 01 02 00`, but `encode(0, src, 254, false)` with
254 bytes of value 1 ends on a full block and `footer()` stores at the
position `size()`: the second frame does not exist. For SLIP two concatenated
frames yield both packets and indices in order. -/
theorem streaming_resumption_full_block (crc8 : Packet → Nat) (i1 i2 : Nat) (p1 p2 : Packet)
    (c : Bool) (ec1 ec2 : cobs.Encoder) (es1 es2 : slip.Encoder) :
    ((EncoderBase.encode cobs.encoderOps crc8 ec1 1 [2] false).map (fun s => s.buffer)
        = some [3, 1, 2, 0] ∧
      EncoderBase.encode cobs.encoderOps crc8 ec2 0 (List.replicate 254 1) false = none) ∧
    ∃ s1 s2, EncoderBase.encode slip.encoderOps crc8 es1 i1 p1 c = some s1 ∧
      EncoderBase.encode slip.encoderOps crc8 es2 i2 p2 c = some s2 ∧
      DecoderBase.feedAll slip.decoderOps crc8 (s1.buffer ++ s2.buffer)
          (DecoderBase.create true c, [], [])
        = some ({ buffer := [], b_index := true, b_crc := c, b_parsing := false,
                  err_count := 0 }, [p1, p2], [i1, i2]) := by
  refine ⟨⟨?_, ?_⟩, ?_⟩
  · rw [cobs_encode_buffer]
    simp only [Bool.false_eq_true, if_false, List.append_nil]
    decide
  · apply cobs_encode_none
    simp only [Bool.false_eq_true, if_false, List.append_nil]
    exact cobs_frame_zero_full_block _ (List.length_replicate 254 1)
      (cobs.replicate_one_ne_zero 254)
  · obtain ⟨s1, hs1, hb1⟩ := slip_encode_some crc8 es1 i1 p1 c
    obtain ⟨s2, hs2, hb2⟩ := slip_encode_some crc8 es2 i2 p2 c
    refine ⟨s1, s2, hs1, hs2, ?_⟩
    have h1 := slip_feedAll_frame_indexed crc8 (DecoderBase.create true c) [] []
      (slip.frame (i2 :: (p2 ++ if c then [crc8 p2] else []))) i1 p1 rfl rfl
    have h2 := slip_feedAll_frame_indexed crc8 (DecoderBase.create true c).reset [p1] [i1]
      [] i2 p2 rfl rfl
    rw [hb1, hb2]
    simp only [DecoderBase.create, DecoderBase.reset, List.nil_append, List.append_nil]
      at h1 h2 ⊢
    rw [h1, h2]
    simp [DecoderBase.feedAll]

theorem encode_eq_foldlM {σ : Type} (E : EncoderOps σ) (crc8 : Packet → Nat) (e : σ)
    (index : Nat) (src : Packet) (b_crc : Bool) :
    EncoderBase.encode E crc8 e index src b_crc =
      (([index] ++ src ++ if b_crc then [crc8 src] else []).foldlM E.append
        (E.header e)).bind E.footer := by
  cases b_crc <;> simp [EncoderBase.encode, List.foldlM_append, Option.bind_assoc]

theorem encodeNoIndex_eq_foldlM {σ : Type} (E : EncoderOps σ) (crc8 : Packet → Nat) (e : σ)
    (src : Packet) (b_crc : Bool) :
    EncoderBase.encodeNoIndex E crc8 e src b_crc =
      ((src ++ if b_crc then [crc8 src] else []).foldlM E.append (E.header e)).bind
        E.footer := by
  cases b_crc <;> simp [EncoderBase.encodeNoIndex, List.foldlM_append, Option.bind_assoc]

/-- C11. Generic encode composition: for any codec (any implementation `E` of
the three lifecycle operations, in particular COBS and SLIP), any encoder
state, index `i`, payload `p` and CRC setting `c`, `encode(i, p, c)` is
`header()`, `append` of each byte of
`[i] ++ p ++ (if c then [crc8 p] else [])`, `footer()`, and leaves that frame;
the overload without index is the same with `[i]` omitted; the CRC byte is
`crc8` of the payload alone. -/
theorem encode_composition {σ : Type} (E : EncoderOps σ) (crc8 : Packet → Nat) (e : σ)
    (i : Nat) (p : Packet) (c : Bool) (ec : cobs.Encoder) (es : slip.Encoder) :
    (EncoderBase.encode E crc8 e i p c =
        (([i] ++ p ++ if c then [crc8 p] else []).foldlM E.append (E.header e)).bind
          E.footer ∧
      EncoderBase.encodeNoIndex E crc8 e p c =
        ((p ++ if c then [crc8 p] else []).foldlM E.append (E.header e)).bind E.footer) ∧
    ((EncoderBase.encode cobs.encoderOps crc8 ec i p c).map (fun s => s.buffer) =
        cobs.frame ([i] ++ p ++ if c then [crc8 p] else []) ∧
      (EncoderBase.encodeNoIndex cobs.encoderOps crc8 ec p c).map (fun s => s.buffer) =
        cobs.frame (p ++ if c then [crc8 p] else [])) ∧
    ((EncoderBase.encode slip.encoderOps crc8 es i p c).map (fun s => s.buffer) =
        some (slip.frame ([i] ++ p ++ if c then [crc8 p] else [])) ∧
      (EncoderBase.encodeNoIndex slip.encoderOps crc8 es p c).map (fun s => s.buffer) =
        some (slip.frame (p ++ if c then [crc8 p] else []))) := by
  refine ⟨⟨?_, ?_⟩, ⟨?_, ?_⟩, ⟨?_, ?_⟩⟩
  · rw [encode_eq_foldlM]
  · rw [encodeNoIndex_eq_foldlM]
  · rw [cobs_encode_buffer]; simp
  · rw [cobs_encodeNoIndex_buffer]
  · rw [slip_encode_buffer]; simp
  · rw [slip_encodeNoIndex_buffer]

/-- C12, at a failing input. `decode` on the one-byte input `DB` (size 1)
reads position 0 and then position 1, which is not below the size; the
embedded `decode` has no result there. -/
theorem slip_decode_truncated_escape :
    slip.Decoder.readPositions 0 [0xDB] = [0, 1] ∧ ([0xDB] : Packet).length = 1 ∧
      slip.Decoder.decode [0xDB] = none := by
  decide

/-- C13, at a failing input. A fresh COBS decoder fed `01`, then `00`: the
first byte is accumulated (the state is reachable), `decode` of `01 00` is the
empty packet, and the second `feed` has no defined result when indexing is
enabled (`packet.front()` of an empty packet) or when verifying is enabled
(`packet.size() - 1` and `packet.back()` of an empty packet). -/
theorem feed_reads_empty_packet (crc8 : Packet → Nat) (b : Bool) :
    DecoderBase.feed cobs.decoderOps crc8 (DecoderBase.create true b) 1 [] []
      = some ({ buffer := [1], b_index := true, b_crc := b, b_parsing := true,
                err_count := 0 }, [], []) ∧
    DecoderBase.Reachable cobs.decoderOps crc8
      { buffer := [1], b_index := true, b_crc := b, b_parsing := true, err_count := 0 } ∧
    cobs.Decoder.decode [1, 0] = [] ∧
    DecoderBase.feed cobs.decoderOps crc8
      { buffer := [1], b_index := true, b_crc := b, b_parsing := true, err_count := 0 }
      0 [] [] = none ∧
    DecoderBase.feedAll cobs.decoderOps crc8 [1, 0] (DecoderBase.create true b, [], []) = none ∧
    DecoderBase.feedAll cobs.decoderOps crc8 [1, 0] (DecoderBase.create false true, [], [])
      = none := by
  have h1 : DecoderBase.feed cobs.decoderOps crc8 (DecoderBase.create true b) 1 [] []
      = some ({ buffer := [1], b_index := true, b_crc := b, b_parsing := true,
                err_count := 0 }, [], []) := by
    simp [DecoderBase.feed, DecoderBase.create, cobs.decoderOps, cobs.MARKER_END]
  refine ⟨h1, ?_, by decide, ?_, ?_, ?_⟩
  · exact DecoderBase.Reachable.feed _ _ 1 [] [] [] [] (DecoderBase.Reachable.create true b) h1
  · simp [DecoderBase.feed, cobs.decoderOps, cobs.Decoder.decode, cobs.Decoder.decodeLoop,
      cobs.MARKER_END]
  · simp [DecoderBase.feedAll, DecoderBase.feed, DecoderBase.create, cobs.decoderOps,
      cobs.Decoder.decode, cobs.Decoder.decodeLoop, cobs.MARKER_END]
  · simp [DecoderBase.feedAll, DecoderBase.feed, DecoderBase.create, cobs.decoderOps,
      cobs.Decoder.decode, cobs.Decoder.decodeLoop, cobs.MARKER_END]

/-- C14, at the input that refutes it. `encode(src, 254, true)` with 254
bytes of value 1 and a crc8 that is constantly 0: the frame is complete and
its first byte is 255, not 254. -/
theorem cobs_full_block_first_byte_255 :
    (EncoderBase.encodeNoIndex cobs.encoderOps (fun _ => 0) cobs.Encoder.create
        (List.replicate 254 1) true).map (fun s => s.buffer.head?) = some (some 255) ∧
    (EncoderBase.encodeNoIndex cobs.encoderOps (fun _ => 0) cobs.Encoder.create
        (List.replicate 254 1) true).map (fun s => s.buffer.head?) ≠ some (some 254) := by
  obtain ⟨s, hs, hh⟩ := cobs_encodeNoIndex_full_block (fun _ => 0) cobs.Encoder.create
    (List.replicate 254 1) (List.length_replicate 254 1) (cobs.replicate_one_ne_zero 254)
  rw [hs]
  simp [hh]

/-- C14, amended. COBS full-block backfill value: in every encoder state
reached from `header()` by appended bytes in which no non-zero byte has been
counted since the last placeholder (the count is 1, or it is 0 and the next
`append` opens the placeholder), appending 254 consecutive non-zero bytes
backfills that placeholder with 255 (`0xFF`) and leaves the count at 0; in
particular, for every payload of exactly 254 non-zero bytes passed to
`encode(src, size, b_crc)` with the CRC enabled, the frame is complete and its
first byte is 255. -/
theorem cobs_full_block_backfill (crc8 : Packet → Nat) (e0 e1 : cobs.Encoder)
    (q0 run p : Packet) :
    (q0.foldlM cobs.Encoder.append (cobs.Encoder.header e0) = some e1 →
      e1.next_zero_count ≤ 1 → run.length = 254 → (∀ x ∈ run, x ≠ 0) →
      ∃ e2, run.foldlM cobs.Encoder.append e1 = some e2 ∧ e2.next_zero_count = 0 ∧
        e2.buffer[if e1.next_zero_count = 0 then e1.buffer.length else e1.next_zero_index]?
          = some 255) ∧
    (p.length = 254 → (∀ x ∈ p, x ≠ 0) →
      ∃ s, EncoderBase.encodeNoIndex cobs.encoderOps crc8 e0 p true = some s ∧
        s.buffer.head? = some 255) :=
  ⟨fun h1 hfresh hlen hnz => cobs_block_backfill e0 e1 q0 run h1 hfresh hlen hnz,
    fun hlen hnz => cobs_encodeNoIndex_full_block crc8 e0 p hlen hnz⟩

/-- C14, instance: after `header()` and the bytes `05 00` the count is 1 and
the pending placeholder is at position 2; 254 bytes of value 1 follow. -/
theorem cobs_full_block_backfill_witness :
    (∃ e2, (List.replicate 254 1).foldlM cobs.Encoder.append
        { buffer := [2, 5, 0], next_zero_count := 1, next_zero_index := 2 } = some e2 ∧
      e2.next_zero_count = 0 ∧ e2.buffer[2]? = some 255) ∧
    ∃ s, EncoderBase.encodeNoIndex cobs.encoderOps (fun _ => 0) cobs.Encoder.create
        (List.replicate 254 1) true = some s ∧ s.buffer.head? = some 255 :=
  ⟨(cobs_full_block_backfill (fun _ => 0) cobs.Encoder.create
        { buffer := [2, 5, 0], next_zero_count := 1, next_zero_index := 2 }
        [5, 0] (List.replicate 254 1) (List.replicate 254 1)).1
      (by decide) (by decide) (List.length_replicate 254 1) (cobs.replicate_one_ne_zero 254),
    (cobs_full_block_backfill (fun _ => 0) cobs.Encoder.create
        { buffer := [2, 5, 0], next_zero_count := 1, next_zero_index := 2 }
        [5, 0] (List.replicate 254 1) (List.replicate 254 1)).2
      (List.length_replicate 254 1) (cobs.replicate_one_ne_zero 254)⟩

/-- C15. SLIP decode tolerates 0, 1 or 2 boundary markers: for every payload
`p`, with `body` the escaping of `p` (`C0` becomes `DB DC`, `DB` becomes
`DB DD`, other bytes unchanged), `decode` returns `p` on `body`,
`[C0] ++ body`, `body ++ [C0]` and `[C0] ++ body ++ [C0]`. -/
theorem slip_decode_tolerates_markers (p : Packet) :
    slip.Decoder.decode (p.flatMap slip.escape) = some p ∧
    slip.Decoder.decode ([0xC0] ++ p.flatMap slip.escape) = some p ∧
    slip.Decoder.decode (p.flatMap slip.escape ++ [0xC0]) = some p ∧
    slip.Decoder.decode ([0xC0] ++ p.flatMap slip.escape ++ [0xC0]) = some p := by
  have h0 : slip.Decoder.decode (p.flatMap slip.escape) = some p := by
    have h := slip.decodeLoop_flatMap_escape p [] []
    simp only [List.append_nil, List.nil_append] at h
    rw [slip.Decoder.decode, h]
    rfl
  refine ⟨h0, ?_, slip.decode_body p, ?_⟩
  · rw [List.singleton_append, slip.Decoder.decode]
    exact (slip.decodeLoop_marker _ _).trans h0
  · rw [List.append_assoc, List.singleton_append, slip.Decoder.decode]
    exact (slip.decodeLoop_marker _ _).trans (slip.decode_body p)

/-- C16, at a failing input. A COBS decoder with verifying enabled that has
accumulated the byte `01` (a reachable state) and receives the terminator:
`decode` of `01 00` is the empty packet, `feed` computes `packet.size() - 1`
and reads `packet.back()` on it, and `errors()` has no defined value
afterwards. -/
theorem error_counter_undefined (crc8 : Packet → Nat) (ps : PacketQueue) (is : IndexQueue) :
    DecoderBase.Reachable cobs.decoderOps crc8
      { buffer := [1], b_index := false, b_crc := true, b_parsing := true, err_count := 0 } ∧
    (DecoderBase.feed cobs.decoderOps crc8
      { buffer := [1], b_index := false, b_crc := true, b_parsing := true, err_count := 0 }
      0 ps is).map (fun s => s.1.errors) = none := by
  constructor
  · refine DecoderBase.Reachable.feed (DecoderBase.create false true) _ 1 [] [] [] []
      (DecoderBase.Reachable.create false true) ?_
    simp [DecoderBase.feed, DecoderBase.create, cobs.decoderOps, cobs.MARKER_END]
  · simp [DecoderBase.feed, cobs.decoderOps, cobs.Decoder.decode, cobs.Decoder.decodeLoop,
      cobs.MARKER_END]

/-- C17, at a failing input. After `header()` and 254 appended bytes of value
1 the buffer has 255 elements, the count is 0 and `next_zero_index` is 255:
the store `buffer[next_zero_index] = next_zero_count` of `footer()` targets the
position `buffer.size()`, which is not below the size, and `footer()` has no
result. -/
theorem cobs_footer_store_at_size :
    (List.replicate 254 1).foldlM cobs.Encoder.append
        (cobs.Encoder.header cobs.Encoder.create)
      = some { buffer := 255 :: List.replicate 254 1, next_zero_count := 0,
               next_zero_index := 255 } ∧
    (255 :: List.replicate 254 1 : Packet).length = 255 ∧
    store (255 :: List.replicate 254 1) 255 0 = none ∧
    cobs.Encoder.footer
      { buffer := 255 :: List.replicate 254 1, next_zero_count := 0, next_zero_index := 255 }
      = none := by
  refine ⟨cobs.foldlM_append_full_block _ (List.length_replicate 254 1)
      (cobs.replicate_one_ne_zero 254) _, ?_, ?_,
    cobs.footer_full_block _ (List.length_replicate 254 1)⟩
  · simp only [List.length_cons, List.length_replicate]
  · have h := cobs.store_at_size (255 :: List.replicate 254 1) 0
    simp only [List.length_cons, List.length_replicate] at h
    exact h

/-- C18. Decoder state invariant: for each codec, in every state a freshly
constructed decoder reaches by `feed` and `reset` calls (and calls of the two
option setters), observed between calls, `parsing()` is true exactly when the
accumulation buffer is non-empty, and the buffer holds no terminator byte of
the codec. -/
theorem decoder_state_invariant (crc8 : Packet → Nat) (d : DecoderBase) :
    (DecoderBase.Reachable cobs.decoderOps crc8 d →
      (d.parsing = true ↔ d.buffer ≠ []) ∧ ∀ x ∈ d.buffer, x ≠ 0) ∧
    (DecoderBase.Reachable slip.decoderOps crc8 d →
      (d.parsing = true ↔ d.buffer ≠ []) ∧ ∀ x ∈ d.buffer, x ≠ 0xC0) :=
  ⟨fun h => reachable_inv cobs.decoderOps crc8 d h,
    fun h => reachable_inv slip.decoderOps crc8 d h⟩

/-- C18, instance: the state after a fresh decoder of either codec has been
fed the byte `01`. -/
theorem decoder_state_invariant_witness :
    (({ buffer := [1], b_index := true, b_crc := true, b_parsing := true,
        err_count := 0 } : DecoderBase).parsing = true ↔ ([1] : Packet) ≠ []) ∧
    (({ buffer := [1], b_index := true, b_crc := true, b_parsing := true,
        err_count := 0 } : DecoderBase).parsing = true ↔ ([1] : Packet) ≠ []) :=
  ⟨((decoder_state_invariant (fun _ => 0)
        { buffer := [1], b_index := true, b_crc := true, b_parsing := true,
          err_count := 0 }).1
      (DecoderBase.Reachable.feed (DecoderBase.create true true) _ 1 [] [] [] []
        (DecoderBase.Reachable.create true true) (by decide))).1,
    ((decoder_state_invariant (fun _ => 0)
        { buffer := [1], b_index := true, b_crc := true, b_parsing := true,
          err_count := 0 }).2
      (DecoderBase.Reachable.feed (DecoderBase.create true true) _ 1 [] [] [] []
        (DecoderBase.Reachable.create true true) (by decide))).1⟩

/-- C19. SLIP escape lookahead is in bounds on the feed path: in every
reachable state of a SLIP decoder, the buffer `feed` passes to `decode` on a
terminator (the accumulated bytes, which `feed` requires to be non-empty, and
the terminator) has `0xC0` as its last byte and nowhere else, every `0xDB` in
it has a position after it inside the buffer, every position `decode` reads is
below the size of the buffer, and `decode` returns a packet. -/
theorem slip_lookahead_in_bounds (crc8 : Packet → Nat) (d : DecoderBase)
    (h : DecoderBase.Reachable slip.decoderOps crc8 d) :
    (d.buffer ++ [0xC0]).getLast? = some 0xC0 ∧
    (∀ k, k + 1 < (d.buffer ++ [0xC0]).length → (d.buffer ++ [0xC0])[k]? ≠ some 0xC0) ∧
    (∀ k, (d.buffer ++ [0xC0])[k]? = some 0xDB → k + 1 < (d.buffer ++ [0xC0]).length) ∧
    (∀ x ∈ slip.Decoder.readPositions 0 (d.buffer ++ [0xC0]),
      x < (d.buffer ++ [0xC0]).length) ∧
    (slip.decoderOps.decode (d.buffer ++ [slip.decoderOps.marker])).isSome = true := by
  have hinv := (reachable_inv slip.decoderOps crc8 d h).2
  refine ⟨by simp, ?_, ?_, (slip.reads_in_bounds_closed d.buffer).1,
    (slip.reads_in_bounds_closed d.buffer).2⟩
  · intro k hk
    exact getElem?_ne_of_forall_ne d.buffer 0xC0 k hinv (by simpa using hk)
  · intro k hk
    have hlt : k < (d.buffer ++ [0xC0]).length := by
      by_contra hge
      rw [List.getElem?_eq_none (by omega)] at hk
      exact absurd hk (by simp)
    simp only [List.length_append, List.length_singleton] at hlt ⊢
    by_contra hge
    have hk2 : k = d.buffer.length := by omega
    subst hk2
    simp at hk

/-- C19, instance: a SLIP decoder that has accumulated the single byte `DB`;
the buffer passed to `decode` is `DB C0` and both positions read are inside. -/
theorem slip_lookahead_in_bounds_witness :
    1 ∈ slip.Decoder.readPositions 0 ([0xDB] ++ [0xC0]) ∧
      1 < ([0xDB] ++ [0xC0] : Packet).length :=
  ⟨by decide,
    (slip_lookahead_in_bounds (fun _ => 0)
      { buffer := [0xDB], b_index := false, b_crc := false, b_parsing := true, err_count := 0 }
      (DecoderBase.Reachable.feed (DecoderBase.create false false) _ 0xDB [] [] [] []
        (DecoderBase.Reachable.create false false) (by decide))).2.2.2.1 1 (by decide)⟩

/-- C20, at a failing input. For the 254 logical bytes of value 1 (`n = 254`)
`footer()` stores at the position `size()`: the frame, and with it the length
`L`, is not defined. -/
theorem cobs_overhead_full_block :
    (List.replicate 254 1 : Packet).length = 254 ∧
      (cobs.frame (List.replicate 254 1)).map List.length = none := by
  refine ⟨List.length_replicate 254 1, ?_⟩
  rw [cobs.frame_full_block _ (List.length_replicate 254 1) (cobs.replicate_one_ne_zero 254)]
  rfl

end Packetizer
